import Mathlib

/-!
Shallow embedding of the recommendation core of the Neo4j_DB repository.

Raw facts are User/Order/Item nodes with HAS_MADE and HAS_ITEM edges; we
embed an order together with its HAS_MADE owner and its HAS_ITEM edges as
one record (`OrderEntry`).  The derived HAS_ORDERED and ORDERED_ALONG_WITH
edges are embedded as association lists keyed by the endpoint id pair
(`Edges`); the Cypher `MERGE ... SET` and `MERGE ... SET = COALESCE(..)+q`
write patterns become `setEdge` and `bumpEdge`.  Timestamps are embedded at
calendar-day granularity (`Int` days), matching the `date(...)` comparisons
used by the queries.  Scores and weights (Go float64) are embedded as `ℚ`.
-/

namespace NeoRec

/-- An order node together with its HAS_MADE owner and HAS_ITEM edges:
`items` is the list of `(item db_id, quantity)` line items, `createdAt` the
creation time at calendar-day granularity. -/
structure OrderEntry where
  oid : Nat
  user : Nat
  items : List (Nat × Nat)
  createdAt : Int
deriving DecidableEq

/-- Derived edges (HAS_ORDERED or ORDERED_ALONG_WITH): association list from
the `(source db_id, target db_id)` pair to the `times` property. -/
abbrev Edges := List ((Nat × Nat) × Nat)

/-- A graph-store state: raw order facts plus the two derived relations. -/
structure Graph where
  orders : List OrderEntry
  hasOrdered : Edges
  alongWith : Edges
deriving DecidableEq

/-- Look up the `times` property of the derived edge with key `k`. -/
def lookupEdge (k : Nat × Nat) : Edges → Option Nat
  | [] => none
  | e :: es => if e.1 = k then some e.2 else lookupEdge k es

/-- Cypher `MERGE (a)-[r]->(b) SET r.times = v`: overwrite the matched
edge, or create it when absent. -/
def setEdge (k : Nat × Nat) (v : Nat) : Edges → Edges
  | [] => [(k, v)]
  | e :: es => if e.1 = k then (k, v) :: es else e :: setEdge k v es

/-- Cypher `MERGE (a)-[r]->(b) SET r.times = COALESCE(r.times, 0) + d`:
increment the matched edge, or create it with value `d` when absent. -/
def bumpEdge (k : Nat × Nat) (d : Nat) : Edges → Edges
  | [] => [(k, d)]
  | e :: es => if e.1 = k then (e.1, e.2 + d) :: es else e :: bumpEdge k d es

/-- The key set of a derived relation has no duplicates (at most one edge
per ordered endpoint pair). -/
def keysNodup (es : Edges) : Prop := (es.map Prod.fst).Nodup

theorem lookupEdge_setEdge (k p : Nat × Nat) (v : Nat) (es : Edges) :
    lookupEdge k (setEdge p v es) = if k = p then some v else lookupEdge k es := by
  induction es with
  | nil =>
    by_cases h : k = p
    · simp [setEdge, lookupEdge, h]
    · have h2 : ¬ p = k := fun hh => h hh.symm
      simp [setEdge, lookupEdge, h, h2]
  | cons e es ih =>
    by_cases hep : e.1 = p
    · by_cases hkp : k = p
      · simp [setEdge, lookupEdge, hep, hkp]
      · have h2 : ¬ p = k := fun hh => hkp hh.symm
        have h3 : ¬ e.1 = k := fun hh => hkp (hh.symm.trans hep)
        simp [setEdge, lookupEdge, hep, hkp, h2, h3]
    · by_cases hek : e.1 = k
      · have h3 : ¬ k = p := fun hh => hep (hek.trans hh)
        simp [setEdge, lookupEdge, hep, hek, h3]
      · simp [setEdge, lookupEdge, hep, hek, ih]

theorem lookupEdge_bumpEdge (k p : Nat × Nat) (d : Nat) (es : Edges) :
    lookupEdge k (bumpEdge p d es)
      = if k = p then some ((lookupEdge p es).getD 0 + d) else lookupEdge k es := by
  induction es with
  | nil =>
    by_cases h : k = p
    · simp [bumpEdge, lookupEdge, h]
    · have h2 : ¬ p = k := fun hh => h hh.symm
      simp [bumpEdge, lookupEdge, h, h2]
  | cons e es ih =>
    by_cases hep : e.1 = p
    · by_cases hkp : k = p
      · have h2 : e.1 = k := hep.trans hkp.symm
        simp [bumpEdge, lookupEdge, hep, hkp, h2]
      · have h3 : ¬ e.1 = k := fun hh => hkp (hh.symm.trans hep)
        have h4 : ¬ p = k := fun hh => hkp hh.symm
        simp [bumpEdge, lookupEdge, hep, hkp, h3, h4]
    · by_cases hek : e.1 = k
      · have h3 : ¬ k = p := fun hh => hep (hek.trans hh)
        simp [bumpEdge, lookupEdge, hep, hek, h3]
      · simp [bumpEdge, lookupEdge, hep, hek, ih]

theorem keys_setEdge (p : Nat × Nat) (v : Nat) (es : Edges) :
    (setEdge p v es).map Prod.fst = es.map Prod.fst ∨
      ((setEdge p v es).map Prod.fst = es.map Prod.fst ++ [p] ∧ p ∉ es.map Prod.fst) := by
  induction es with
  | nil => exact Or.inr ⟨by simp [setEdge], by simp⟩
  | cons e es ih =>
    by_cases hep : e.1 = p
    · exact Or.inl (by simp [setEdge, hep])
    · rcases ih with h1 | h1
      · exact Or.inl (by simp [setEdge, hep, h1])
      · refine Or.inr ⟨by simp [setEdge, hep, h1.1], ?_⟩
        simp only [List.map_cons, List.mem_cons]
        rintro (h2 | h2)
        · exact hep h2.symm
        · exact h1.2 h2

theorem keysNodup_setEdge (p : Nat × Nat) (v : Nat) (es : Edges)
    (h : keysNodup es) : keysNodup (setEdge p v es) := by
  rcases keys_setEdge p v es with h1 | h1
  · unfold keysNodup
    rw [h1]
    exact h
  · unfold keysNodup
    rw [h1.1]
    simp only [List.nodup_append, List.nodup_cons, List.not_mem_nil, not_false_iff,
      List.nodup_nil, and_true, List.disjoint_singleton]
    exact ⟨h, by simpa using h1.2⟩

theorem keys_bumpEdge (p : Nat × Nat) (d : Nat) (es : Edges) :
    (bumpEdge p d es).map Prod.fst = es.map Prod.fst ∨
      ((bumpEdge p d es).map Prod.fst = es.map Prod.fst ++ [p] ∧ p ∉ es.map Prod.fst) := by
  induction es with
  | nil => exact Or.inr ⟨by simp [bumpEdge], by simp⟩
  | cons e es ih =>
    by_cases hep : e.1 = p
    · exact Or.inl (by simp [bumpEdge, hep])
    · rcases ih with h1 | h1
      · exact Or.inl (by simp [bumpEdge, hep, h1])
      · refine Or.inr ⟨by simp [bumpEdge, hep, h1.1], ?_⟩
        simp only [List.map_cons, List.mem_cons]
        rintro (h2 | h2)
        · exact hep h2.symm
        · exact h1.2 h2

theorem keysNodup_bumpEdge (p : Nat × Nat) (d : Nat) (es : Edges)
    (h : keysNodup es) : keysNodup (bumpEdge p d es) := by
  rcases keys_bumpEdge p d es with h1 | h1
  · unfold keysNodup
    rw [h1]
    exact h
  · unfold keysNodup
    rw [h1.1]
    simp only [List.nodup_append, List.nodup_cons, List.not_mem_nil, not_false_iff,
      List.nodup_nil, and_true, List.disjoint_singleton]
    exact ⟨h, by simpa using h1.2⟩

/-! ### Raw-fact aggregates

These are the aggregate values the Cypher build queries compute from the
raw HAS_MADE / HAS_ITEM facts. -/

/-- `sum(hi.quantity)` over the HAS_ITEM entries of one item list that point
to item `i` (a well-formed order has at most one such entry). -/
def qtySum (items : List (Nat × Nat)) (i : Nat) : Nat :=
  ((items.filter (fun e => e.1 = i)).map Prod.snd).sum

/-- Whether order `o` has a HAS_ITEM edge to item `i`. -/
def containsItem (o : OrderEntry) (i : Nat) : Bool :=
  o.items.any (fun e => e.1 = i)

/-- `sum(hi.quantity)` over all HAS_ITEM edges reachable through the orders
user `u` made that point to item `i` (the HAS_ORDERED build aggregate). -/
def hasOrderedSum (orders : List OrderEntry) (u i : Nat) : Nat :=
  ((orders.filter (fun o => o.user = u)).map (fun o => qtySum o.items i)).sum

/-- `count(o)` over orders whose HAS_ITEM edges reach both `a` and `b`
(the ORDERED_ALONG_WITH build aggregate). -/
def coOccurCount (orders : List OrderEntry) (a b : Nat) : Nat :=
  orders.countP (fun o => containsItem o a && containsItem o b)

/-- The `(u.db_id, i.db_id)` pairs matched by
`MATCH (u:User)-[:HAS_MADE]->(o:Order)-[hi:HAS_ITEM]->(i:Item)`, one group
per distinct pair (the `WITH u, i, sum(..)` grouping). -/
def userItemPairs (orders : List OrderEntry) : List (Nat × Nat) :=
  (orders.flatMap (fun o => o.items.map (fun e => (o.user, e.1)))).dedup

/-- The `(i1.db_id, i2.db_id)` pairs with `i1.db_id < i2.db_id` matched
inside a single order's HAS_ITEM edges. -/
def coPairsOf (items : List (Nat × Nat)) : List (Nat × Nat) :=
  items.flatMap (fun e1 => items.flatMap (fun e2 =>
    if e1.1 < e2.1 then [(e1.1, e2.1)] else []))

/-- The distinct canonical item pairs co-occurring in at least one order
(the `WITH i1, i2, count(o)` grouping of the build query). -/
def coPairs (orders : List OrderEntry) : List (Nat × Nat) :=
  (orders.flatMap (fun o => coPairsOf o.items)).dedup

/-! ### Aggregation Builder: full rebuild

`buildHasOrderedRelationships`: for every matched (user, item) group, MERGE
the HAS_ORDERED edge and SET `times` to the quantity sum.  No derived edge
is deleted first. -/

def buildHasOrdered (g : Graph) : Graph :=
  { g with hasOrdered :=
      ((userItemPairs g.orders).foldl
        (fun es p => setEdge p (hasOrderedSum g.orders p.1 p.2) es) g.hasOrdered) }

/-- `buildOrderedAlongWithRelationships`: for every matched canonical item
pair, MERGE both directed ORDERED_ALONG_WITH edges and SET `times` to the
co-occurrence count.  No derived edge is deleted first. -/
def buildAlongWith (g : Graph) : Graph :=
  { g with alongWith :=
      ((coPairs g.orders).foldl
        (fun es p => setEdge (p.2, p.1) (coOccurCount g.orders p.1 p.2)
          (setEdge p (coOccurCount g.orders p.1 p.2) es)) g.alongWith) }

/-- `BuildRelationships`: HAS_ORDERED build followed by ORDERED_ALONG_WITH
build. -/
def buildRelationships (g : Graph) : Graph :=
  buildAlongWith (buildHasOrdered g)

/-! ### Aggregation Builder: incremental update -/

/-- Orders matched by `MATCH (o:Order {db_id: $orderID})`. -/
def matchedOrders (g : Graph) (oid : Nat) : List OrderEntry :=
  g.orders.filter (fun o => o.oid = oid)

/-- First write of `UpdateRelationshipsForNewOrder`: one
`MERGE ... SET times = COALESCE(times,0) + quantity` per HAS_ITEM row of the
matched order(s). -/
def applyHasOrderedBumps (os : List OrderEntry) (es : Edges) : Edges :=
  os.foldl (fun es o =>
    o.items.foldl (fun es e => bumpEdge (o.user, e.1) e.2 es) es) es

/-- Second write of `UpdateRelationshipsForNewOrder`: for each canonical
item pair row of the matched order(s), bump both directed
ORDERED_ALONG_WITH edges by 1. -/
def applyAlongWithBumps (os : List OrderEntry) (es : Edges) : Edges :=
  os.foldl (fun es o =>
    (coPairsOf o.items).foldl
      (fun es p => bumpEdge (p.2, p.1) 1 (bumpEdge p 1 es)) es) es

/-- `UpdateRelationshipsForNewOrder`: two separate `ExecuteWrite` calls,
each an auto-commit transaction.  `ok1`/`ok2` model whether each of the two
transactions commits; a failed transaction leaves the store unchanged and
makes the function return the corresponding wrapped error, but a failure of
the second write does not undo the already committed first write. -/
def updateRelationshipsForNewOrder (ok1 ok2 : Bool) (oid : Nat) (g : Graph) :
    Graph × Option String :=
  if ok1 = false then
    (g, some "failed to update HAS_ORDERED relationships")
  else
    let g1 : Graph :=
      { g with hasOrdered := applyHasOrderedBumps (matchedOrders g oid) g.hasOrdered }
    if ok2 = false then
      (g1, some "failed to update ORDERED_ALONG_WITH relationships")
    else
      ({ g1 with alongWith := applyAlongWithBumps (matchedOrders g1 oid) g1.alongWith },
        none)

/-- Record a new order's raw facts (Order node, HAS_MADE and HAS_ITEM
edges) and run the incremental update for it, both writes committing. -/
def addAndUpdate (g : Graph) (o : OrderEntry) : Graph :=
  (updateRelationshipsForNewOrder true true o.oid
    { g with orders := g.orders ++ [o] }).1

/-- A sequence of incremental updates, one per new order. -/
def runIncremental (g : Graph) (news : List OrderEntry) : Graph :=
  news.foldl addAndUpdate g

/-- Well-formed raw order: each item appears in at most one HAS_ITEM edge
and every quantity is at least 1. -/
def WFOrder (o : OrderEntry) : Prop :=
  (o.items.map Prod.fst).Nodup ∧ ∀ e ∈ o.items, 1 ≤ e.2

/-! ### Fold characterizations -/

theorem qtySum_cons (e : Nat × Nat) (its : List (Nat × Nat)) (i : Nat) :
    qtySum (e :: its) i = (if e.1 = i then e.2 else 0) + qtySum its i := by
  by_cases h : e.1 = i <;> simp [qtySum, h]

theorem qtySum_eq_zero (its : List (Nat × Nat)) (i : Nat)
    (h : i ∉ its.map Prod.fst) : qtySum its i = 0 := by
  induction its with
  | nil => rfl
  | cons e its ih =>
    simp only [List.map_cons, List.mem_cons] at h
    push_neg at h
    rw [qtySum_cons, ih h.2, if_neg (fun hh => h.1 hh.symm)]

theorem qtySum_pos (its : List (Nat × Nat)) (i : Nat)
    (hq : ∀ e ∈ its, 1 ≤ e.2) (h : i ∈ its.map Prod.fst) : 1 ≤ qtySum its i := by
  induction its with
  | nil => simp at h
  | cons e its ih =>
    rw [qtySum_cons]
    simp only [List.map_cons, List.mem_cons] at h
    rcases h with h | h
    · rw [if_pos h.symm]
      have := hq e (by simp)
      omega
    · have := ih (fun e he => hq e (by simp [he])) h
      omega

theorem lookupEdge_foldl_setEdge (f : Nat × Nat → Nat) (L : List (Nat × Nat))
    (es : Edges) (k : Nat × Nat) :
    lookupEdge k (L.foldl (fun es p => setEdge p (f p) es) es)
      = if k ∈ L then some (f k) else lookupEdge k es := by
  induction L generalizing es with
  | nil => simp
  | cons p L ih =>
    rw [List.foldl_cons, ih]
    by_cases hkL : k ∈ L
    · simp [hkL]
    · by_cases hkp : k = p
      · simp [hkL, hkp, lookupEdge_setEdge]
      · simp [hkL, hkp, lookupEdge_setEdge]

theorem lookupEdge_foldl_setEdgePair (f : Nat × Nat → Nat)
    (hf : ∀ p : Nat × Nat, f (p.2, p.1) = f p) (L : List (Nat × Nat))
    (es : Edges) (k : Nat × Nat) :
    lookupEdge k
        (L.foldl (fun es p => setEdge (p.2, p.1) (f p) (setEdge p (f p) es)) es)
      = if k ∈ L ∨ (k.2, k.1) ∈ L then some (f k) else lookupEdge k es := by
  induction L generalizing es with
  | nil => simp
  | cons p L ih =>
    rw [List.foldl_cons, ih]
    by_cases h1 : k ∈ L ∨ (k.2, k.1) ∈ L
    · have h2 : k ∈ p :: L ∨ (k.2, k.1) ∈ p :: L := by
        rcases h1 with h | h
        · exact Or.inl (List.mem_cons_of_mem _ h)
        · exact Or.inr (List.mem_cons_of_mem _ h)
      rw [if_pos h1, if_pos h2]
    · rw [if_neg h1, lookupEdge_setEdge, lookupEdge_setEdge]
      by_cases hk1 : k = (p.2, p.1)
      · have hv : f p = f k := by rw [hk1, hf p]
        have h2 : (k.2, k.1) = p := by
          rw [hk1]
        have h3 : k ∈ p :: L ∨ (k.2, k.1) ∈ p :: L :=
          Or.inr (by rw [h2]; exact List.mem_cons_self _ _)
        rw [if_pos hk1, if_pos h3, hv]
      · by_cases hk2 : k = p
        · have h3 : k ∈ p :: L ∨ (k.2, k.1) ∈ p :: L :=
            Or.inl (by rw [hk2]; exact List.mem_cons_self _ _)
          rw [if_neg hk1, if_pos hk2, if_pos h3, hk2]
        · have h3 : ¬ (k ∈ p :: L ∨ (k.2, k.1) ∈ p :: L) := by
            push_neg at h1
            simp only [List.mem_cons]
            push_neg
            refine ⟨⟨hk2, h1.1⟩, ⟨?_, h1.2⟩⟩
            intro hh
            exact hk1 (by rw [← hh])
          rw [if_neg hk1, if_neg hk2, if_neg h3]

theorem lookupEdge_foldl_bumpItems (u : Nat) (its : List (Nat × Nat))
    (es : Edges) (k : Nat × Nat) :
    lookupEdge k (its.foldl (fun es e => bumpEdge (u, e.1) e.2 es) es)
      = if k.1 = u ∧ k.2 ∈ its.map Prod.fst
        then some ((lookupEdge k es).getD 0 + qtySum its k.2)
        else lookupEdge k es := by
  induction its generalizing es with
  | nil => simp
  | cons e its ih =>
    rw [List.foldl_cons, ih, lookupEdge_bumpEdge]
    by_cases hk : k = (u, e.1)
    · have hk1 : k.1 = u := by rw [hk]
      have hk2 : k.2 = e.1 := by rw [hk]
      by_cases hmem : k.2 ∈ its.map Prod.fst
      · have hc : k.1 = u ∧ k.2 ∈ (e :: its).map Prod.fst := ⟨hk1, by simp [hk2]⟩
        rw [if_pos ⟨hk1, hmem⟩, if_pos hc, if_pos hk, qtySum_cons, if_pos hk2.symm, ← hk]
        simp [Nat.add_assoc, Nat.add_comm, Nat.add_left_comm]
      · have hc : k.1 = u ∧ k.2 ∈ (e :: its).map Prod.fst := ⟨hk1, by simp [hk2]⟩
        rw [if_neg (by simp [hmem]), if_pos hc, if_pos hk, qtySum_cons, if_pos hk2.symm,
          qtySum_eq_zero its k.2 hmem, ← hk]
        simp
    · rw [if_neg hk]
      by_cases hcond : k.1 = u ∧ k.2 ∈ its.map Prod.fst
      · have hne : ¬ e.1 = k.2 := by
          intro hh
          exact hk (Prod.ext hcond.1 hh.symm)
        have hc : k.1 = u ∧ k.2 ∈ (e :: its).map Prod.fst :=
          ⟨hcond.1, by
            simp only [List.map_cons, List.mem_cons]
            exact Or.inr hcond.2⟩
        rw [if_pos hcond, if_pos hc, qtySum_cons, if_neg hne]
        simp
      · have hc : ¬ (k.1 = u ∧ k.2 ∈ (e :: its).map Prod.fst) := by
          rintro ⟨hu, hmem⟩
          simp only [List.map_cons, List.mem_cons] at hmem
          rcases hmem with hmem | hmem
          · exact hk (Prod.ext hu hmem)
          · exact hcond ⟨hu, hmem⟩
        rw [if_neg hcond, if_neg hc]

/-- Number of times the incremental co-occurrence write bumps the directed
edge `k` when processing the single pair row `p`: once if the row equals
`k` and once if it equals its reverse. -/
def occ1 (k p : Nat × Nat) : Nat :=
  (if p = k then 1 else 0) + (if p = (k.2, k.1) then 1 else 0)

/-- Total number of bumps the directed edge `k` receives from the pair
rows `L`. -/
def occCount (k : Nat × Nat) : List (Nat × Nat) → Nat
  | [] => 0
  | p :: L => occ1 k p + occCount k L

theorem lookupEdge_bumpPairStep (p k : Nat × Nat) (es : Edges) :
    lookupEdge k (bumpEdge (p.2, p.1) 1 (bumpEdge p 1 es))
      = if occ1 k p = 0 then lookupEdge k es
        else some ((lookupEdge k es).getD 0 + occ1 k p) := by
  have hswap : (p = (k.2, k.1)) ↔ (k = (p.2, p.1)) := by
    constructor
    · intro h
      rw [h]
    · intro h
      rw [h]
  by_cases h1 : k = (p.2, p.1)
  · by_cases h2 : k = p
    · subst h2
      rw [← h1]
      simp [lookupEdge_bumpEdge, occ1, if_pos h1]
    · subst h1
      have h3 : ¬ p = (p.2, p.1) := fun hh => h2 hh.symm
      simp [lookupEdge_bumpEdge, occ1, h2, h3]
  · by_cases h2 : k = p
    · subst h2
      simp [lookupEdge_bumpEdge, occ1, h1]
    · have h3 : ¬ p = k := fun hh => h2 hh.symm
      have h4 : ¬ p = (k.2, k.1) := fun hh => h1 (hswap.1 hh)
      simp [lookupEdge_bumpEdge, occ1, h1, h2, h3, h4]

theorem lookupEdge_foldl_bumpPair (L : List (Nat × Nat)) (es : Edges)
    (k : Nat × Nat) :
    lookupEdge k (L.foldl (fun es p => bumpEdge (p.2, p.1) 1 (bumpEdge p 1 es)) es)
      = if occCount k L = 0 then lookupEdge k es
        else some ((lookupEdge k es).getD 0 + occCount k L) := by
  induction L generalizing es with
  | nil => simp [occCount]
  | cons p L ih =>
    rw [List.foldl_cons, ih, lookupEdge_bumpPairStep]
    by_cases h1 : occ1 k p = 0
    · rw [if_pos h1]
      simp only [occCount, h1, Nat.zero_add]
    · rw [if_neg h1]
      by_cases h2 : occCount k L = 0
      · rw [if_pos h2]
        simp only [occCount, h2, Nat.add_zero]
        rw [if_neg (by omega)]
      · rw [if_neg h2]
        simp only [occCount, Option.getD_some]
        rw [if_neg (by omega)]
        simp only [Option.some.injEq]
        omega

/-! ### Membership characterizations of the matched pair lists -/

/-- There is an order of user `u` with a HAS_ITEM edge to `i`. -/
def supportsUI (orders : List OrderEntry) (u i : Nat) : Prop :=
  ∃ o ∈ orders, o.user = u ∧ i ∈ o.items.map Prod.fst

theorem mem_userItemPairs (orders : List OrderEntry) (u i : Nat) :
    (u, i) ∈ userItemPairs orders ↔ supportsUI orders u i := by
  simp only [userItemPairs, List.mem_dedup, List.mem_flatMap, List.mem_map,
    supportsUI, Prod.mk.injEq]
  tauto

theorem containsItem_iff (o : OrderEntry) (i : Nat) :
    containsItem o i = true ↔ i ∈ o.items.map Prod.fst := by
  simp only [containsItem, List.any_eq_true, List.mem_map, decide_eq_true_eq]

theorem mem_coPairsOf (items : List (Nat × Nat)) (a b : Nat) :
    (a, b) ∈ coPairsOf items ↔
      a ∈ items.map Prod.fst ∧ b ∈ items.map Prod.fst ∧ a < b := by
  simp only [coPairsOf, List.mem_flatMap, List.mem_map]
  constructor
  · rintro ⟨e1, he1, e2, he2, hmem⟩
    by_cases h : e1.1 < e2.1
    · rw [if_pos h] at hmem
      simp only [List.mem_singleton, Prod.mk.injEq] at hmem
      refine ⟨⟨e1, he1, hmem.1.symm⟩, ⟨e2, he2, hmem.2.symm⟩, ?_⟩
      rw [hmem.1, hmem.2]
      exact h
    · rw [if_neg h] at hmem
      simp at hmem
  · rintro ⟨⟨e1, he1, ha⟩, ⟨e2, he2, hb⟩, hab⟩
    refine ⟨e1, he1, e2, he2, ?_⟩
    rw [if_pos (by rw [ha, hb]; exact hab)]
    simp [ha, hb]

theorem mem_coPairs (orders : List OrderEntry) (a b : Nat) :
    (a, b) ∈ coPairs orders ↔
      a < b ∧ coOccurCount orders a b ≠ 0 := by
  have hco : coOccurCount orders a b ≠ 0 ↔
      ∃ o ∈ orders, (containsItem o a && containsItem o b) = true := by
    unfold coOccurCount
    constructor
    · intro h
      exact List.countP_pos_iff.1 (Nat.pos_of_ne_zero h)
    · intro h
      exact Nat.pos_iff_ne_zero.1 (List.countP_pos_iff.2 h)
  rw [hco]
  simp only [coPairs, List.mem_dedup, List.mem_flatMap, mem_coPairsOf,
    Bool.and_eq_true, containsItem_iff]
  constructor
  · rintro ⟨o, ho, ha, hb, hab⟩
    exact ⟨hab, o, ho, ha, hb⟩
  · rintro ⟨hab, o, ho, ha, hb⟩
    exact ⟨o, ho, ha, hb, hab⟩

theorem coOccurCount_comm (orders : List OrderEntry) (a b : Nat) :
    coOccurCount orders a b = coOccurCount orders b a := by
  unfold coOccurCount
  induction orders with
  | nil => rfl
  | cons o orders ih =>
    simp only [List.countP_cons, ih, Bool.and_comm]

theorem hasOrderedSum_cons (o : OrderEntry) (orders : List OrderEntry) (u i : Nat) :
    hasOrderedSum (o :: orders) u i
      = (if o.user = u then qtySum o.items i else 0) + hasOrderedSum orders u i := by
  by_cases h : o.user = u <;> simp [hasOrderedSum, h]

theorem hasOrderedSum_append (orders : List OrderEntry) (o : OrderEntry) (u i : Nat) :
    hasOrderedSum (orders ++ [o]) u i
      = hasOrderedSum orders u i + (if o.user = u then qtySum o.items i else 0) := by
  by_cases h : o.user = u <;> simp [hasOrderedSum, List.filter_append, h]

theorem coOccurCount_append (orders : List OrderEntry) (o : OrderEntry) (a b : Nat) :
    coOccurCount (orders ++ [o]) a b
      = coOccurCount orders a b
        + (if containsItem o a && containsItem o b then 1 else 0) := by
  by_cases h : containsItem o a && containsItem o b <;>
    simp [coOccurCount, List.countP_append, List.countP_cons, h]

theorem hasOrderedSum_ne_zero_iff (orders : List OrderEntry) (u i : Nat)
    (hWF : ∀ o ∈ orders, WFOrder o) :
    hasOrderedSum orders u i ≠ 0 ↔ supportsUI orders u i := by
  induction orders with
  | nil => simp [hasOrderedSum, supportsUI]
  | cons o orders ih =>
    have hWFo : WFOrder o := hWF o (by simp)
    have ih2 := ih (fun o2 ho2 => hWF o2 (by simp [ho2]))
    rw [hasOrderedSum_cons]
    constructor
    · intro h
      by_cases hrest : hasOrderedSum orders u i = 0
      · rw [hrest, Nat.add_zero] at h
        have hu : o.user = u := by
          by_contra hu
          rw [if_neg hu] at h
          exact h rfl
        rw [if_pos hu] at h
        have hi : i ∈ o.items.map Prod.fst := by
          by_contra hi
          exact h (qtySum_eq_zero o.items i hi)
        exact ⟨o, by simp, hu, hi⟩
      · rcases ih2.1 hrest with ⟨o2, ho2, h2⟩
        exact ⟨o2, by simp [ho2], h2⟩
    · rintro ⟨o2, ho2, hu, hi⟩
      rcases List.mem_cons.1 ho2 with h2 | h2
      · subst h2
        rw [if_pos hu]
        have := qtySum_pos o2.items i hWFo.2 hi
        omega
      · have := ih2.2 ⟨o2, h2, hu, hi⟩
        omega

/-! ### Derived-edge invariants -/

/-- HAS_ORDERED invariant: the `(u, i)` edge exists exactly when some order
of `u` contains `i`, and then its `times` is the quantity sum. -/
def HOInv (g : Graph) : Prop :=
  ∀ u i : Nat, lookupEdge (u, i) g.hasOrdered
    = if hasOrderedSum g.orders u i = 0 then none
      else some (hasOrderedSum g.orders u i)

/-- ORDERED_ALONG_WITH invariant: the `(a, b)` edge exists exactly when
`a ≠ b` and some order contains both, and then its `times` is the
co-occurrence count. -/
def AWInv (g : Graph) : Prop :=
  ∀ a b : Nat, lookupEdge (a, b) g.alongWith
    = if a ≠ b ∧ coOccurCount g.orders a b ≠ 0 then
        some (coOccurCount g.orders a b)
      else none

theorem buildRelationships_orders (g : Graph) :
    (buildRelationships g).orders = g.orders := rfl

theorem buildRelationships_hasOrdered (g : Graph) :
    (buildRelationships g).hasOrdered
      = (userItemPairs g.orders).foldl
          (fun es p => setEdge p (hasOrderedSum g.orders p.1 p.2) es) g.hasOrdered := rfl

theorem buildRelationships_alongWith (g : Graph) :
    (buildRelationships g).alongWith
      = (coPairs g.orders).foldl
          (fun es p => setEdge (p.2, p.1) (coOccurCount g.orders p.1 p.2)
            (setEdge p (coOccurCount g.orders p.1 p.2) es)) g.alongWith := rfl

theorem HOInv_buildRelationships (R : List OrderEntry)
    (hWF : ∀ o ∈ R, WFOrder o) :
    HOInv (buildRelationships (Graph.mk R [] [])) := by
  intro u i
  rw [buildRelationships_hasOrdered, buildRelationships_orders,
    lookupEdge_foldl_setEdge (fun p => hasOrderedSum R p.1 p.2)
      (userItemPairs R) [] (u, i)]
  have hmem : (u, i) ∈ userItemPairs R ↔ ¬ hasOrderedSum R u i = 0 := by
    rw [mem_userItemPairs, ← hasOrderedSum_ne_zero_iff R u i hWF]
  by_cases h : hasOrderedSum R u i = 0
  · rw [if_neg (fun hm => (hmem.1 hm) h), if_pos h]
    rfl
  · rw [if_pos (hmem.2 h), if_neg h]

theorem AWInv_buildRelationships (R : List OrderEntry) :
    AWInv (buildRelationships (Graph.mk R [] [])) := by
  intro a b
  have hf : ∀ p : Nat × Nat,
      (fun p : Nat × Nat => coOccurCount R p.1 p.2) (p.2, p.1)
        = (fun p : Nat × Nat => coOccurCount R p.1 p.2) p := by
    intro p
    exact coOccurCount_comm R p.2 p.1
  rw [buildRelationships_alongWith, buildRelationships_orders,
    lookupEdge_foldl_setEdgePair (fun p => coOccurCount R p.1 p.2) hf
      (coPairs R) [] (a, b)]
  have hcond : ((a, b) ∈ coPairs R ∨ (b, a) ∈ coPairs R)
      ↔ (a ≠ b ∧ coOccurCount R a b ≠ 0) := by
    rw [mem_coPairs, mem_coPairs, coOccurCount_comm R b a]
    constructor
    · rintro (⟨h1, h2⟩ | ⟨h1, h2⟩)
      · exact ⟨Nat.ne_of_lt h1, h2⟩
      · exact ⟨(Nat.ne_of_lt h1).symm, h2⟩
    · rintro ⟨h1, h2⟩
      rcases Nat.lt_or_ge a b with h | h
      · exact Or.inl ⟨h, h2⟩
      · exact Or.inr ⟨Nat.lt_of_le_of_ne h (fun hh => h1 hh.symm), h2⟩
  by_cases h : a ≠ b ∧ coOccurCount R a b ≠ 0
  · rw [if_pos ((by simpa using hcond.2 h : (a, b) ∈ coPairs R ∨ ((a, b).2, (a, b).1) ∈ coPairs R)), if_pos h]
  · rw [if_neg (fun hm => h (hcond.1 (by simpa using hm))), if_neg h]
    rfl

/-! ### The incremental update step -/

theorem matchedOrders_append_fresh (R : List OrderEntry) (o : OrderEntry)
    (ho aw : Edges) (hfresh : ∀ o2 ∈ R, o2.oid ≠ o.oid) :
    matchedOrders (Graph.mk (R ++ [o]) ho aw) o.oid = [o] := by
  unfold matchedOrders
  rw [List.filter_append]
  have h1 : R.filter (fun o2 => o2.oid = o.oid) = [] := by
    rw [List.filter_eq_nil_iff]
    intro a ha
    simp [hfresh a ha]
  rw [h1]
  simp

theorem addAndUpdate_eq (g : Graph) (o : OrderEntry)
    (hfresh : ∀ o2 ∈ g.orders, o2.oid ≠ o.oid) :
    addAndUpdate g o = Graph.mk (g.orders ++ [o])
      (applyHasOrderedBumps [o] g.hasOrdered)
      (applyAlongWithBumps [o] g.alongWith) := by
  unfold addAndUpdate updateRelationshipsForNewOrder
  simp only [Bool.true_eq_false, if_false, if_neg]
  rw [matchedOrders_append_fresh g.orders o g.hasOrdered g.alongWith hfresh]
  rw [matchedOrders_append_fresh g.orders o
    (applyHasOrderedBumps [o] g.hasOrdered) g.alongWith hfresh]

theorem applyHasOrderedBumps_single (o : OrderEntry) (es : Edges) :
    applyHasOrderedBumps [o] es
      = o.items.foldl (fun es e => bumpEdge (o.user, e.1) e.2 es) es := rfl

theorem applyAlongWithBumps_single (o : OrderEntry) (es : Edges) :
    applyAlongWithBumps [o] es
      = (coPairsOf o.items).foldl
          (fun es p => bumpEdge (p.2, p.1) 1 (bumpEdge p 1 es)) es := rfl

/-! ### Counting the bump rows of one order -/

theorem sum_map_ite_zero (items : List (Nat × Nat)) (x : Nat) (c : Nat)
    (h : x ∉ items.map Prod.fst) :
    (items.map (fun e => if e.1 = x then c else 0)).sum = 0 := by
  induction items with
  | nil => rfl
  | cons e its ih =>
    simp only [List.map_cons, List.mem_cons] at h
    push_neg at h
    simp only [List.map_cons, List.sum_cons, if_neg (fun hh : e.1 = x => h.1 hh.symm)]
    rw [ih h.2]

theorem sum_map_ite_key (items : List (Nat × Nat)) (x : Nat) (c : Nat)
    (hnd : (items.map Prod.fst).Nodup) :
    (items.map (fun e => if e.1 = x then c else 0)).sum
      = if x ∈ items.map Prod.fst then c else 0 := by
  induction items with
  | nil => simp
  | cons e its ih =>
    simp only [List.map_cons, List.nodup_cons] at hnd
    by_cases hex : e.1 = x
    · have hnot : x ∉ its.map Prod.fst := hex ▸ hnd.1
      simp only [List.map_cons, List.sum_cons, if_pos hex,
        sum_map_ite_zero its x c hnot, Nat.add_zero]
      rw [if_pos (by simp [← hex])]
    · rw [List.map_cons, List.sum_cons, if_neg hex, Nat.zero_add, ih hnd.2]
      by_cases hmem : x ∈ its.map Prod.fst
      · rw [if_pos hmem, if_pos (by simp [hmem])]
      · rw [if_neg hmem, if_neg (by
          simp only [List.map_cons, List.mem_cons]
          push_neg
          exact ⟨fun hh => hex hh.symm, hmem⟩)]

theorem countP_ite_pair (e1 e2 : Nat × Nat) (x y : Nat) :
    List.countP (fun p => p = (x, y))
        (if e1.1 < e2.1 then [(e1.1, e2.1)] else [])
      = if e1.1 = x ∧ e2.1 = y ∧ x < y then 1 else 0 := by
  by_cases h : e1.1 < e2.1
  · rw [if_pos h]
    by_cases hx : e1.1 = x
    · by_cases hy : e2.1 = y
      · rw [if_pos ⟨hx, hy, by rw [← hx, ← hy]; exact h⟩]
        simp [List.countP_cons, hx, hy]
      · rw [if_neg (fun hh => hy hh.2.1)]
        simp [List.countP_cons, hy, Prod.ext_iff]
    · rw [if_neg (fun hh => hx hh.1)]
      simp [List.countP_cons, hx, Prod.ext_iff]
  · rw [if_neg h, if_neg (by
      rintro ⟨hx, hy, hxy⟩
      exact h (by rw [hx, hy]; exact hxy))]
    rfl

theorem countP_coPairsOf (items : List (Nat × Nat))
    (hnd : (items.map Prod.fst).Nodup) (x y : Nat) :
    (coPairsOf items).countP (fun p => p = (x, y))
      = if x < y ∧ x ∈ items.map Prod.fst ∧ y ∈ items.map Prod.fst
        then 1 else 0 := by
  rw [coPairsOf, List.countP_flatMap]
  have hinner : ∀ e1 : Nat × Nat,
      List.countP (fun p => p = (x, y))
          (items.flatMap (fun e2 => if e1.1 < e2.1 then [(e1.1, e2.1)] else []))
        = if e1.1 = x then
            (if x < y then (if y ∈ items.map Prod.fst then 1 else 0) else 0)
          else 0 := by
    intro e1
    rw [List.countP_flatMap]
    by_cases hcase : e1.1 = x ∧ x < y
    · have hmapeq : items.map
          ((List.countP fun p => p = (x, y))
            ∘ fun e2 => if e1.1 < e2.1 then [(e1.1, e2.1)] else [])
          = items.map (fun e2 => if e2.1 = y then 1 else 0) := by
        apply List.map_congr_left
        intro e2 he2
        simp only [Function.comp]
        rw [countP_ite_pair]
        by_cases hy : e2.1 = y
        · rw [if_pos ⟨hcase.1, hy, hcase.2⟩, if_pos hy]
        · rw [if_neg (fun hh => hy hh.2.1), if_neg hy]
      rw [hmapeq, sum_map_ite_key items y 1 hnd, if_pos hcase.1, if_pos hcase.2]
    · have hmapeq : items.map
          ((List.countP fun p => p = (x, y))
            ∘ fun e2 => if e1.1 < e2.1 then [(e1.1, e2.1)] else [])
          = items.map (fun _ => 0) := by
        apply List.map_congr_left
        intro e2 he2
        simp only [Function.comp]
        rw [countP_ite_pair]
        rw [if_neg (fun hh => hcase ⟨hh.1, hh.2.2⟩)]
      rw [hmapeq]
      have hz : (items.map (fun _ : Nat × Nat => (0 : Nat))).sum = 0 := by
        simp
      rw [hz]
      by_cases h1 : e1.1 = x
      · rw [if_pos h1, if_neg (fun hh => hcase ⟨h1, hh⟩)]
      · rw [if_neg h1]
  have hmapeq2 : items.map
      ((List.countP fun p => p = (x, y))
        ∘ fun e1 => items.flatMap (fun e2 => if e1.1 < e2.1 then [(e1.1, e2.1)] else []))
      = items.map (fun e1 => if e1.1 = x then
          (if x < y then (if y ∈ items.map Prod.fst then 1 else 0) else 0)
        else 0) := by
    apply List.map_congr_left
    intro e1 he1
    simp only [Function.comp]
    exact hinner e1
  rw [hmapeq2, sum_map_ite_key items x _ hnd]
  by_cases hxy : x < y
  · by_cases hx : x ∈ items.map Prod.fst
    · by_cases hy : y ∈ items.map Prod.fst
      · rw [if_pos hx, if_pos hxy, if_pos hy, if_pos ⟨hxy, hx, hy⟩]
      · rw [if_pos hx, if_pos hxy, if_neg hy, if_neg (fun hh => hy hh.2.2)]
    · rw [if_neg hx, if_neg (fun hh => hx hh.2.1)]
  · by_cases hx : x ∈ items.map Prod.fst
    · rw [if_pos hx, if_neg hxy, if_neg (fun hh => hxy hh.1)]
    · rw [if_neg hx, if_neg (fun hh => hxy hh.1)]

theorem occCount_eq_countP (k : Nat × Nat) (L : List (Nat × Nat)) :
    occCount k L
      = L.countP (fun p => p = k) + L.countP (fun p => p = (k.2, k.1)) := by
  induction L with
  | nil => rfl
  | cons p L ih =>
    simp only [occCount, occ1, List.countP_cons, ih]
    by_cases h1 : p = k <;> by_cases h2 : p = (k.2, k.1) <;>
      simp [h1, h2] <;> omega

theorem occCount_coPairsOf (items : List (Nat × Nat))
    (hnd : (items.map Prod.fst).Nodup) (a b : Nat) :
    occCount (a, b) (coPairsOf items)
      = if a ≠ b ∧ a ∈ items.map Prod.fst ∧ b ∈ items.map Prod.fst
        then 1 else 0 := by
  rw [occCount_eq_countP]
  dsimp only
  rw [countP_coPairsOf items hnd a b, countP_coPairsOf items hnd b a]
  rcases Nat.lt_trichotomy a b with h | h | h
  · have hne : a ≠ b := Nat.ne_of_lt h
    have hnotlt : ¬ b < a := by omega
    by_cases ha : a ∈ items.map Prod.fst <;>
      by_cases hb : b ∈ items.map Prod.fst <;>
        simp [h, hne, hnotlt, ha, hb]
  · have hnotlt : ¬ a < b := by omega
    have hnotlt2 : ¬ b < a := by omega
    simp [h, hnotlt, hnotlt2]
  · have hne : a ≠ b := (Nat.ne_of_lt h).symm
    have hnotlt : ¬ a < b := by omega
    by_cases ha : a ∈ items.map Prod.fst <;>
      by_cases hb : b ∈ items.map Prod.fst <;>
        simp [h, hne, hnotlt, ha, hb]

/-! ### Invariant preservation by the incremental update -/

theorem HOInv_addAndUpdate (g : Graph) (o : OrderEntry) (hg : HOInv g)
    (hWFo : WFOrder o) (hfresh : ∀ o2 ∈ g.orders, o2.oid ≠ o.oid) :
    HOInv (addAndUpdate g o) := by
  rw [addAndUpdate_eq g o hfresh]
  intro u i
  show lookupEdge (u, i) (applyHasOrderedBumps [o] g.hasOrdered)
    = if hasOrderedSum (g.orders ++ [o]) u i = 0 then none
      else some (hasOrderedSum (g.orders ++ [o]) u i)
  rw [applyHasOrderedBumps_single,
    lookupEdge_foldl_bumpItems o.user o.items g.hasOrdered (u, i),
    hasOrderedSum_append]
  have hold := hg u i
  by_cases hc : u = o.user ∧ i ∈ o.items.map Prod.fst
  · have hq := qtySum_pos o.items i hWFo.2 hc.2
    rw [if_pos hc, if_pos hc.1.symm]
    by_cases hz : hasOrderedSum g.orders u i = 0
    · rw [hold, if_pos hz, hz, if_neg (by omega)]
      rfl
    · rw [hold, if_neg hz, if_neg (by omega)]
      rfl
  · rw [if_neg hc]
    have hzero : (if o.user = u then qtySum o.items i else 0) = 0 := by
      by_cases hu : o.user = u
      · rw [if_pos hu]
        by_cases hi : i ∈ o.items.map Prod.fst
        · exact absurd ⟨hu.symm, hi⟩ hc
        · exact qtySum_eq_zero o.items i hi
      · rw [if_neg hu]
    rw [hzero, Nat.add_zero]
    exact hold

theorem AWInv_addAndUpdate (g : Graph) (o : OrderEntry) (hg : AWInv g)
    (hWFo : WFOrder o) (hfresh : ∀ o2 ∈ g.orders, o2.oid ≠ o.oid) :
    AWInv (addAndUpdate g o) := by
  rw [addAndUpdate_eq g o hfresh]
  intro a b
  show lookupEdge (a, b) (applyAlongWithBumps [o] g.alongWith)
    = if a ≠ b ∧ coOccurCount (g.orders ++ [o]) a b ≠ 0 then
        some (coOccurCount (g.orders ++ [o]) a b)
      else none
  rw [applyAlongWithBumps_single,
    lookupEdge_foldl_bumpPair (coPairsOf o.items) g.alongWith (a, b),
    occCount_coPairsOf o.items hWFo.1 a b, coOccurCount_append]
  have hold := hg a b
  by_cases hc : a ≠ b ∧ a ∈ o.items.map Prod.fst ∧ b ∈ o.items.map Prod.fst
  · rw [if_pos hc, if_neg (by omega)]
    have hcont : (containsItem o a && containsItem o b) = true := by
      rw [Bool.and_eq_true, containsItem_iff, containsItem_iff]
      exact ⟨hc.2.1, hc.2.2⟩
    rw [if_pos hcont, if_pos (⟨hc.1, by omega⟩ :
      a ≠ b ∧ coOccurCount g.orders a b + 1 ≠ 0)]
    by_cases hz : coOccurCount g.orders a b = 0
    · rw [hold, if_neg (fun hh => hh.2 hz), hz]
      rfl
    · rw [hold, if_pos ⟨hc.1, hz⟩]
      rfl
  · rw [if_neg hc, if_pos rfl]
    by_cases hab : a = b
    · rw [hold, if_neg (fun hh => hh.1 hab), if_neg (fun hh => hh.1 hab)]
    · have hcont : ¬ (containsItem o a && containsItem o b) = true := by
        rw [Bool.and_eq_true, containsItem_iff, containsItem_iff]
        rintro ⟨h1, h2⟩
        exact hc ⟨hab, h1, h2⟩
      rw [if_neg hcont, Nat.add_zero]
      exact hold

theorem keysNodup_applyHasOrderedBumps (o : OrderEntry) (es : Edges)
    (h : keysNodup es) : keysNodup (applyHasOrderedBumps [o] es) := by
  rw [applyHasOrderedBumps_single]
  induction o.items generalizing es with
  | nil => exact h
  | cons e its ih => exact ih _ (keysNodup_bumpEdge _ _ _ h)

theorem keysNodup_applyAlongWithBumps (o : OrderEntry) (es : Edges)
    (h : keysNodup es) : keysNodup (applyAlongWithBumps [o] es) := by
  rw [applyAlongWithBumps_single]
  induction coPairsOf o.items generalizing es with
  | nil => exact h
  | cons p L ih =>
    exact ih _ (keysNodup_bumpEdge _ _ _ (keysNodup_bumpEdge _ _ _ h))

theorem keysNodup_foldl_setEdge (f : Nat × Nat → Nat) (L : List (Nat × Nat))
    (es : Edges) (h : keysNodup es) :
    keysNodup (L.foldl (fun es p => setEdge p (f p) es) es) := by
  induction L generalizing es with
  | nil => exact h
  | cons p L ih => exact ih _ (keysNodup_setEdge _ _ _ h)

theorem keysNodup_foldl_setEdgePair (f : Nat × Nat → Nat) (L : List (Nat × Nat))
    (es : Edges) (h : keysNodup es) :
    keysNodup (L.foldl
      (fun es p => setEdge (p.2, p.1) (f p) (setEdge p (f p) es)) es) := by
  induction L generalizing es with
  | nil => exact h
  | cons p L ih =>
    exact ih _ (keysNodup_setEdge _ _ _ (keysNodup_setEdge _ _ _ h))

/-- The state produced by the Aggregation Builder: singleton derived edges
with the two summary invariants. -/
def GoodGraph (g : Graph) : Prop :=
  keysNodup g.hasOrdered ∧ keysNodup g.alongWith ∧ HOInv g ∧ AWInv g

theorem GoodGraph_buildRelationships (R : List OrderEntry)
    (hWF : ∀ o ∈ R, WFOrder o) :
    GoodGraph (buildRelationships (Graph.mk R [] [])) := by
  refine ⟨?_, ?_, HOInv_buildRelationships R hWF, AWInv_buildRelationships R⟩
  · rw [buildRelationships_hasOrdered]
    exact keysNodup_foldl_setEdge _ _ _ (by simp [keysNodup])
  · rw [buildRelationships_alongWith]
    exact keysNodup_foldl_setEdgePair _ _ _ (by simp [keysNodup])

theorem GoodGraph_addAndUpdate (g : Graph) (o : OrderEntry)
    (hG : GoodGraph g) (hWFo : WFOrder o)
    (hfresh : ∀ o2 ∈ g.orders, o2.oid ≠ o.oid) :
    GoodGraph (addAndUpdate g o) := by
  refine ⟨?_, ?_, HOInv_addAndUpdate g o hG.2.2.1 hWFo hfresh,
    AWInv_addAndUpdate g o hG.2.2.2 hWFo hfresh⟩
  · rw [addAndUpdate_eq g o hfresh]
    exact keysNodup_applyHasOrderedBumps o g.hasOrdered hG.1
  · rw [addAndUpdate_eq g o hfresh]
    exact keysNodup_applyAlongWithBumps o g.alongWith hG.2.1

theorem GoodGraph_runIncremental (news : List OrderEntry) : ∀ g : Graph,
    GoodGraph g → (∀ o ∈ news, WFOrder o) →
    ((g.orders ++ news).map OrderEntry.oid).Nodup →
    GoodGraph (runIncremental g news) ∧
      (runIncremental g news).orders = g.orders ++ news := by
  induction news with
  | nil =>
    intro g hG hWF hids
    exact ⟨hG, by simp [runIncremental]⟩
  | cons o news ih =>
    intro g hG hWF hids
    have hfresh : ∀ o2 ∈ g.orders, o2.oid ≠ o.oid := by
      rw [List.map_append] at hids
      have hd := (List.nodup_append.1 hids).2.2
      intro o2 ho2 heq
      exact hd (List.mem_map_of_mem _ ho2) (by rw [heq]; simp)
    have hG2 := GoodGraph_addAndUpdate g o hG (hWF o (by simp)) hfresh
    have horders : (addAndUpdate g o).orders = g.orders ++ [o] := by
      rw [addAndUpdate_eq g o hfresh]
    have hids2 : (((addAndUpdate g o).orders ++ news).map OrderEntry.oid).Nodup := by
      rw [horders, List.append_assoc]
      exact hids
    have hstep := ih (addAndUpdate g o) hG2
      (fun o2 h2 => hWF o2 (by simp [h2])) hids2
    have hrun : runIncremental g (o :: news)
        = runIncremental (addAndUpdate g o) news := rfl
    refine ⟨by rw [hrun]; exact hstep.1, ?_⟩
    rw [hrun, hstep.2, horders, List.append_assoc]
    rfl

/-! ### Rebuild idempotence (MERGE + SET writes the same values again) -/

theorem setEdge_self (k : Nat × Nat) (v : Nat) (es : Edges)
    (h : lookupEdge k es = some v) : setEdge k v es = es := by
  induction es with
  | nil => simp [lookupEdge] at h
  | cons e es ih =>
    by_cases hek : e.1 = k
    · have h2 : e.2 = v := by
        rw [lookupEdge, if_pos hek] at h
        exact Option.some.inj h
      rw [setEdge, if_pos hek]
      obtain ⟨e1, e2⟩ := e
      simp only at hek h2
      rw [hek, h2]
    · have h2 : lookupEdge k es = some v := by
        rw [lookupEdge, if_neg hek] at h
        exact h
      rw [setEdge, if_neg hek, ih h2]

theorem foldl_setEdge_id (f : Nat × Nat → Nat) (L : List (Nat × Nat)) (es : Edges)
    (h : ∀ k ∈ L, lookupEdge k es = some (f k)) :
    L.foldl (fun es p => setEdge p (f p) es) es = es := by
  induction L with
  | nil => rfl
  | cons p L ih =>
    rw [List.foldl_cons, setEdge_self p (f p) es (h p (by simp))]
    exact ih (fun k hk => h k (by simp [hk]))

theorem foldl_setEdgePair_id (f : Nat × Nat → Nat) (L : List (Nat × Nat)) (es : Edges)
    (h1 : ∀ k ∈ L, lookupEdge k es = some (f k))
    (h2 : ∀ k ∈ L, lookupEdge (k.2, k.1) es = some (f k)) :
    L.foldl (fun es p => setEdge (p.2, p.1) (f p) (setEdge p (f p) es)) es = es := by
  induction L with
  | nil => rfl
  | cons p L ih =>
    rw [List.foldl_cons, setEdge_self p (f p) es (h1 p (by simp)),
      setEdge_self (p.2, p.1) (f p) es (h2 p (by simp))]
    exact ih (fun k hk => h1 k (by simp [hk])) (fun k hk => h2 k (by simp [hk]))

theorem graph_ext (g1 g2 : Graph) (h1 : g1.orders = g2.orders)
    (h2 : g1.hasOrdered = g2.hasOrdered) (h3 : g1.alongWith = g2.alongWith) :
    g1 = g2 := by
  cases g1
  cases g2
  simp_all

theorem buildRelationships_idem (g : Graph) :
    buildRelationships (buildRelationships g) = buildRelationships g := by
  have hf : ∀ p : Nat × Nat,
      (fun p : Nat × Nat => coOccurCount g.orders p.1 p.2) (p.2, p.1)
        = (fun p : Nat × Nat => coOccurCount g.orders p.1 p.2) p := by
    intro p
    exact coOccurCount_comm g.orders p.2 p.1
  apply graph_ext
  · rfl
  · rw [buildRelationships_hasOrdered (buildRelationships g),
      buildRelationships_orders]
    apply foldl_setEdge_id
    intro k hk
    rw [buildRelationships_hasOrdered g,
      lookupEdge_foldl_setEdge (fun p => hasOrderedSum g.orders p.1 p.2)
        (userItemPairs g.orders) g.hasOrdered k, if_pos hk]
  · rw [buildRelationships_alongWith (buildRelationships g),
      buildRelationships_orders]
    apply foldl_setEdgePair_id
    · intro k hk
      rw [buildRelationships_alongWith g,
        lookupEdge_foldl_setEdgePair (fun p => coOccurCount g.orders p.1 p.2) hf
          (coPairs g.orders) g.alongWith k, if_pos (Or.inl hk)]
    · intro k hk
      rw [buildRelationships_alongWith g,
        lookupEdge_foldl_setEdgePair (fun p => coOccurCount g.orders p.1 p.2) hf
          (coPairs g.orders) g.alongWith (k.2, k.1),
        if_pos (Or.inr (show ((k.2, k.1).2, (k.2, k.1).1) ∈ coPairs g.orders from hk))]
      exact congrArg some (coOccurCount_comm g.orders k.2 k.1)

instance decSupportsUI (orders : List OrderEntry) (u i : Nat) :
    Decidable (supportsUI orders u i) := by
  unfold supportsUI
  infer_instance

/-- Boolean form of `supportsUI`, for stating the overwrite equation. -/
theorem buildRelationships_hasOrdered_lookup (g : Graph) (u i : Nat) :
    lookupEdge (u, i) (buildRelationships g).hasOrdered
      = if supportsUI g.orders u i then some (hasOrderedSum g.orders u i)
        else lookupEdge (u, i) g.hasOrdered := by
  rw [buildRelationships_hasOrdered g,
    lookupEdge_foldl_setEdge (fun p => hasOrderedSum g.orders p.1 p.2)
      (userItemPairs g.orders) g.hasOrdered (u, i)]
  by_cases h : supportsUI g.orders u i
  · rw [if_pos ((mem_userItemPairs g.orders u i).2 h), if_pos h]
  · rw [if_neg (fun hm => h ((mem_userItemPairs g.orders u i).1 hm)), if_neg h]

instance decWFOrder (o : OrderEntry) : Decidable (WFOrder o) := by
  unfold WFOrder
  infer_instance

/-! ### Claim theorems: Aggregation Builder -/

/-- C1: after a full rebuild (from a state with no derived edges, as in
the data-load pipeline, which clears the database first) followed by any sequence
of incremental updates, each applied once for a fresh new order, there is
at most one HAS_ORDERED edge per (user, item) pair and its `times` equals
the sum of the HAS_ITEM quantities over all orders the user made that
contain the item. -/
theorem hasOrdered_times_correct (R news : List OrderEntry)
    (hWFR : ∀ o ∈ R, WFOrder o) (hWFn : ∀ o ∈ news, WFOrder o)
    (hids : ((R ++ news).map OrderEntry.oid).Nodup) :
    keysNodup (runIncremental (buildRelationships (Graph.mk R [] [])) news).hasOrdered ∧
    ∀ u i t, lookupEdge (u, i)
        (runIncremental (buildRelationships (Graph.mk R [] [])) news).hasOrdered = some t →
      t = hasOrderedSum
        (runIncremental (buildRelationships (Graph.mk R [] [])) news).orders u i := by
  have hG0 := GoodGraph_buildRelationships R hWFR
  have h := GoodGraph_runIncremental news (buildRelationships (Graph.mk R [] []))
    hG0 hWFn (by rw [buildRelationships_orders]; exact hids)
  refine ⟨h.1.1, ?_⟩
  intro u i t ht
  have hinv := h.1.2.2.1 u i
  rw [hinv] at ht
  by_cases hz : hasOrderedSum
      (runIncremental (buildRelationships (Graph.mk R [] [])) news).orders u i = 0
  · rw [if_pos hz] at ht
    cases ht
  · rw [if_neg hz] at ht
    exact (Option.some.inj ht).symm

theorem hasOrdered_times_correct_witness :
    lookupEdge (1, 10)
      (runIncremental (buildRelationships
        (Graph.mk [OrderEntry.mk 1 1 [(10, 2)] 0] [] []))
        [OrderEntry.mk 2 1 [(10, 3), (11, 1)] 0]).hasOrdered = some 5 ∧
    (5 : Nat) = hasOrderedSum
      (runIncremental (buildRelationships
        (Graph.mk [OrderEntry.mk 1 1 [(10, 2)] 0] [] []))
        [OrderEntry.mk 2 1 [(10, 3), (11, 1)] 0]).orders 1 10 :=
  ⟨by decide,
    (hasOrdered_times_correct [OrderEntry.mk 1 1 [(10, 2)] 0]
      [OrderEntry.mk 2 1 [(10, 3), (11, 1)] 0]
      (by decide) (by decide) (by decide)).2 1 10 5 (by decide)⟩

/-- C2: after a full rebuild (from a state with no derived edges) followed
by any sequence of incremental updates for fresh new orders, the
ORDERED_ALONG_WITH relation has at most one edge per directed pair, is
symmetric with equal `times` in both directions, has no self-loops, and
every edge's `times` equals the number of distinct orders containing both
items. -/
theorem alongWith_symmetric_cooccurrence (R news : List OrderEntry)
    (hWFR : ∀ o ∈ R, WFOrder o) (hWFn : ∀ o ∈ news, WFOrder o)
    (hids : ((R ++ news).map OrderEntry.oid).Nodup) :
    keysNodup (runIncremental (buildRelationships (Graph.mk R [] [])) news).alongWith ∧
    (∀ a b, lookupEdge (a, b)
        (runIncremental (buildRelationships (Graph.mk R [] [])) news).alongWith
      = lookupEdge (b, a)
        (runIncremental (buildRelationships (Graph.mk R [] [])) news).alongWith) ∧
    (∀ a, lookupEdge (a, a)
        (runIncremental (buildRelationships (Graph.mk R [] [])) news).alongWith = none) ∧
    ∀ a b t, lookupEdge (a, b)
        (runIncremental (buildRelationships (Graph.mk R [] [])) news).alongWith = some t →
      a ≠ b ∧ t = coOccurCount
        (runIncremental (buildRelationships (Graph.mk R [] [])) news).orders a b := by
  have hG0 := GoodGraph_buildRelationships R hWFR
  have h := GoodGraph_runIncremental news (buildRelationships (Graph.mk R [] []))
    hG0 hWFn (by rw [buildRelationships_orders]; exact hids)
  have hinv := h.1.2.2.2
  refine ⟨h.1.2.1, ?_, ?_, ?_⟩
  · intro a b
    rw [hinv a b, hinv b a,
      coOccurCount_comm (runIncremental (buildRelationships (Graph.mk R [] [])) news).orders b a]
    by_cases hab : a = b
    · rw [if_neg (fun hh => hh.1 hab), if_neg (fun hh => hh.1 hab.symm)]
    · by_cases hz : coOccurCount
          (runIncremental (buildRelationships (Graph.mk R [] [])) news).orders a b = 0
      · rw [if_neg (fun hh => hh.2 hz), if_neg (fun hh => hh.2 hz)]
      · rw [if_pos ⟨hab, hz⟩, if_pos ⟨fun hh => hab hh.symm, hz⟩]
  · intro a
    rw [hinv a a, if_neg (fun hh => hh.1 rfl)]
  · intro a b t ht
    rw [hinv a b] at ht
    by_cases hc : a ≠ b ∧ coOccurCount
        (runIncremental (buildRelationships (Graph.mk R [] [])) news).orders a b ≠ 0
    · rw [if_pos hc] at ht
      exact ⟨hc.1, (Option.some.inj ht).symm⟩
    · rw [if_neg hc] at ht
      cases ht

theorem alongWith_symmetric_cooccurrence_witness :
    (lookupEdge (10, 11)
      (runIncremental (buildRelationships
        (Graph.mk [OrderEntry.mk 1 1 [(10, 2)] 0] [] []))
        [OrderEntry.mk 2 1 [(10, 3), (11, 1)] 0]).alongWith
    = lookupEdge (11, 10)
      (runIncremental (buildRelationships
        (Graph.mk [OrderEntry.mk 1 1 [(10, 2)] 0] [] []))
        [OrderEntry.mk 2 1 [(10, 3), (11, 1)] 0]).alongWith) ∧
    ((10 : Nat) ≠ 11 ∧ (1 : Nat) = coOccurCount
      (runIncremental (buildRelationships
        (Graph.mk [OrderEntry.mk 1 1 [(10, 2)] 0] [] []))
        [OrderEntry.mk 2 1 [(10, 3), (11, 1)] 0]).orders 10 11) :=
  ⟨(alongWith_symmetric_cooccurrence [OrderEntry.mk 1 1 [(10, 2)] 0]
      [OrderEntry.mk 2 1 [(10, 3), (11, 1)] 0]
      (by decide) (by decide) (by decide)).2.1 10 11,
    (alongWith_symmetric_cooccurrence [OrderEntry.mk 1 1 [(10, 2)] 0]
      [OrderEntry.mk 2 1 [(10, 3), (11, 1)] 0]
      (by decide) (by decide) (by decide)).2.2.2 10 11 1 (by decide)⟩

/-- C3: the incremental update issues two separate auto-commit write
transactions; when the first commits and the second fails, the function
returns an error while the HAS_ORDERED increments remain visible and the
ORDERED_ALONG_WITH increments are absent — the update is not atomic. -/
theorem updateRelationshipsForNewOrder_not_atomic :
    ((updateRelationshipsForNewOrder true false 42
        (Graph.mk [OrderEntry.mk 42 1 [(1, 2), (2, 1)] 0] [] [])).2).isSome = true ∧
    (updateRelationshipsForNewOrder true false 42
        (Graph.mk [OrderEntry.mk 42 1 [(1, 2), (2, 1)] 0] [] [])).1.hasOrdered
      = [((1, 1), 2), ((1, 2), 1)] ∧
    (updateRelationshipsForNewOrder true false 42
        (Graph.mk [OrderEntry.mk 42 1 [(1, 2), (2, 1)] 0] [] [])).1.hasOrdered
      ≠ (Graph.mk [OrderEntry.mk 42 1 [(1, 2), (2, 1)] 0] [] []).hasOrdered ∧
    (updateRelationshipsForNewOrder true false 42
        (Graph.mk [OrderEntry.mk 42 1 [(1, 2), (2, 1)] 0] [] [])).1.alongWith
      = ([] : Edges) := by
  decide

/-- C5 counterexample: `BuildRelationships` does not clear existing derived
edges — two states with identical raw facts but different prior derived
edges rebuild to different derived states, and a stale HAS_ORDERED edge
survives the rebuild untouched. -/
theorem buildRelationships_depends_on_prior_state :
    (buildRelationships (Graph.mk [] [((1, 1), 5)] [])).hasOrdered = [((1, 1), 5)] ∧
    (buildRelationships (Graph.mk [] [] [])).hasOrdered = ([] : Edges) ∧
    (Graph.mk [] [((1, 1), 5)] []).orders = (Graph.mk ([] : List OrderEntry) [] []).orders ∧
    buildRelationships (Graph.mk [] [((1, 1), 5)] [])
      ≠ buildRelationships (Graph.mk [] [] []) := by
  decide

/-- C5 (amended): `BuildRelationships` never deletes derived edges; it
recomputes and overwrites the HAS_ORDERED value of every (user, item) pair
supported by the current raw facts, leaves every other pre-existing derived
edge in place (so the result also depends on prior derived state), and
running it twice in a row yields identical derived edges. -/
theorem buildRelationships_overwrite_and_idem (g : Graph) :
    buildRelationships (buildRelationships g) = buildRelationships g ∧
    (buildRelationships g).orders = g.orders ∧
    ∀ u i, lookupEdge (u, i) (buildRelationships g).hasOrdered
      = if supportsUI g.orders u i then some (hasOrderedSum g.orders u i)
        else lookupEdge (u, i) g.hasOrdered :=
  ⟨buildRelationships_idem g, rfl, buildRelationships_hasOrdered_lookup g⟩

/-! ### Recommendation service: data shapes

Scores and weights (Go float64) are embedded as `ℚ`.  A strategy result is
the outcome of one strategy call: either a store failure (the wrapped Go
error) or a list of `(item db_id, score)` rows; the Cypher strategy queries
group by item, so a well-formed result has pairwise distinct item ids. -/

structure HybridWeights where
  userFrequency : ℚ
  userCoOrders : ℚ
  globalCoOrders : ℚ
  timeBasedTrend : ℚ
deriving DecidableEq

structure Recommendation where
  item : Nat
  score : ℚ
  explanation : String
  strategy : String
deriving DecidableEq

abbrev StratResult := Except String (List (Nat × ℚ))

/-! ### The per-item maps of `HybridRecommendation`

`itemScores` (Go `map[int]float64`, reads of a missing key yield 0 and
`+=` inserts) and `strategyContributions` (Go `map[int]map[string]float64`,
assignment overwrites) are embedded as association lists in insertion
order. -/

abbrev ScoreMap := List (Nat × ℚ)
abbrev ContribMap := List (Nat × List (String × ℚ))

/-- `itemScores[itemID] = itemScores[itemID] + score`. -/
def addScore (i : Nat) (sc : ℚ) : ScoreMap → ScoreMap
  | [] => [(i, sc)]
  | e :: m => if e.1 = i then (i, e.2 + sc) :: m else e :: addScore i sc m

/-- `strategyContributions[itemID][strategy] = score` (overwrite). -/
def setContribIn (s : String) (sc : ℚ) : List (String × ℚ) → List (String × ℚ)
  | [] => [(s, sc)]
  | e :: m => if e.1 = s then (s, sc) :: m else e :: setContribIn s sc m

def setContrib (i : Nat) (s : String) (sc : ℚ) : ContribMap → ContribMap
  | [] => [(i, [(s, sc)])]
  | e :: m => if e.1 = i then (i, setContribIn s sc e.2) :: m else e :: setContrib i s sc m

def lookupScore (i : Nat) : ScoreMap → Option ℚ
  | [] => none
  | e :: m => if e.1 = i then some e.2 else lookupScore i m

/-- The inner contribution map of one item (empty when absent). -/
def contribsOf (i : Nat) : ContribMap → List (String × ℚ)
  | [] => []
  | e :: m => if e.1 = i then e.2 else contribsOf i m

/-- Go `delete(m, key)`. -/
def eraseScore (i : Nat) (m : ScoreMap) : ScoreMap :=
  m.filter (fun e => ¬ e.1 = i)

def eraseContrib (i : Nat) (m : ContribMap) : ContribMap :=
  m.filter (fun e => ¬ e.1 = i)

/-- One strategy block of `HybridRecommendation`: a failed strategy is
logged and contributes nothing; a successful one adds `score × weight` to
`itemScores` and records it (overwriting) in `strategyContributions`. -/
def applyStrategy (name : String) (w : ℚ) (res : StratResult)
    (st : ScoreMap × ContribMap) : ScoreMap × ContribMap :=
  match res with
  | .error _ => st
  | .ok recs => recs.foldl
      (fun st r => (addScore r.1 (r.2 * w) st.1, setContrib r.1 name (r.2 * w) st.2))
      st

/-- The merged maps after running the strategies: user frequency always;
the two co-order strategies only when an item is in the cart; time trend
always. -/
def hybridState (freq co glob trend : StratResult) (cart : Option Nat)
    (w : HybridWeights) : ScoreMap × ContribMap :=
  let st1 := applyStrategy "UserFrequency" w.userFrequency freq ([], [])
  let st2 := match cart with
    | some _ => applyStrategy "GlobalCoOrders" w.globalCoOrders glob
        (applyStrategy "UserCoOrders" w.userCoOrders co st1)
    | none => st1
  applyStrategy "TimeBasedTrend" w.timeBasedTrend trend st2

/-- The score map after deleting the in-cart item. -/
def hybridScores (freq co glob trend : StratResult) (cart : Option Nat)
    (w : HybridWeights) : ScoreMap :=
  match cart with
  | some t => eraseScore t (hybridState freq co glob trend cart w).1
  | none => (hybridState freq co glob trend cart w).1

/-- The contribution map after deleting the in-cart item. -/
def hybridContribs (freq co glob trend : StratResult) (cart : Option Nat)
    (w : HybridWeights) : ContribMap :=
  match cart with
  | some t => eraseContrib t (hybridState freq co glob trend cart w).2
  | none => (hybridState freq co glob trend cart w).2

/-- The dominant-strategy fold: start from `("", 0)` and keep the entry
whose contribution is strictly greater than the best so far, in the order
the contribution map is iterated. -/
def pickTopStrategy (l : List (String × ℚ)) : String :=
  (l.foldl (fun acc e => if e.2 > acc.2 then e else acc) ("", 0)).1

/-- The `switch topStrategy` explanation lookup; the co-order texts embed
the in-cart item id (the Go code dereferences `*itemInCartID` there). -/
def explanationFor (top : String) (cart : Option Nat) : String :=
  match top with
  | "UserFrequency" => "Recommended because you frequently order this"
  | "UserCoOrders" => "You often order this with item " ++ toString (cart.getD 0)
  | "GlobalCoOrders" =>
      "Customers who order item " ++ toString (cart.getD 0) ++ " also order this"
  | "TimeBasedTrend" => "This item is trending right now"
  | _ => "Recommended based on your preferences"

/-- The recommendation list of `HybridRecommendation`.  `rho` is the
iteration order of the inner Go contribution map, which Go leaves
unspecified: any permutation of the recorded entries is a possible
execution. -/
def hybridRecs (freq co glob trend : StratResult) (cart : Option Nat)
    (w : HybridWeights) (rho : List (String × ℚ) → List (String × ℚ)) :
    List Recommendation :=
  let contribs := hybridContribs freq co glob trend cart w
  let recs := (hybridScores freq co glob trend cart w).map (fun e =>
    let top := pickTopStrategy (rho (contribsOf e.1 contribs))
    Recommendation.mk e.1 e.2 (explanationFor top cart) top)
  recs.insertionSort (fun a b => b.score ≤ a.score)

/-- `HybridRecommendation` itself: it ends with `return recommendations,
nil`, so the error component is always absent. -/
def hybridRecommendation (freq co glob trend : StratResult) (cart : Option Nat)
    (w : HybridWeights) (rho : List (String × ℚ) → List (String × ℚ)) :
    Except String (List Recommendation) :=
  .ok (hybridRecs freq co glob trend cart w rho)

/-! ### Spec-side contribution values -/

/-- First-match lookup in a strategy result list. -/
def lookupStrat (j : Nat) : List (Nat × ℚ) → Option ℚ
  | [] => none
  | e :: l => if e.1 = j then some e.2 else lookupStrat j l

/-- Whether the strategy result contains a row for item `j` (a failed
strategy hits nothing). -/
def stratHits (res : StratResult) (j : Nat) : Bool :=
  match res with
  | .error _ => false
  | .ok l => l.any (fun r => r.1 = j)

/-- The single weighted contribution a strategy makes to item `j`:
its score for `j` times the weight, and 0 when the strategy failed or did
not return the item. -/
def contribOf (res : StratResult) (w : ℚ) (j : Nat) : ℚ :=
  match res with
  | .error _ => 0
  | .ok l =>
    match lookupStrat j l with
    | some v => v * w
    | none => 0

/-- The sum of the weighted contributions of the invoked strategies to item
`j` (the co-order strategies are invoked only when an item is in the
cart). -/
def totalContrib (freq co glob trend : StratResult) (cart : Option Nat)
    (w : HybridWeights) (j : Nat) : ℚ :=
  contribOf freq w.userFrequency j
    + (match cart with
      | some _ => contribOf co w.userCoOrders j + contribOf glob w.globalCoOrders j
      | none => 0)
    + contribOf trend w.timeBasedTrend j

/-! ### Score-map lemmas -/

theorem lookupScore_addScore (j i : Nat) (sc : ℚ) (m : ScoreMap) :
    lookupScore j (addScore i sc m)
      = if j = i then some ((lookupScore i m).getD 0 + sc) else lookupScore j m := by
  induction m with
  | nil =>
    by_cases h : j = i
    · simp [addScore, lookupScore, h]
    · have h2 : ¬ i = j := fun hh => h hh.symm
      simp [addScore, lookupScore, h, h2]
  | cons e m ih =>
    by_cases hei : e.1 = i
    · by_cases hji : j = i
      · have h2 : e.1 = j := hei.trans hji.symm
        simp [addScore, lookupScore, hei, hji, h2]
      · have h3 : ¬ e.1 = j := fun hh => hji (hh.symm.trans hei)
        have h4 : ¬ i = j := fun hh => hji hh.symm
        simp [addScore, lookupScore, hei, hji, h3, h4]
    · by_cases hej : e.1 = j
      · have h3 : ¬ j = i := fun hh => hei (hej.trans hh)
        simp [addScore, lookupScore, hei, hej, h3]
      · simp [addScore, lookupScore, hei, hej, ih]

theorem scoreKeys_addScore (i : Nat) (sc : ℚ) (m : ScoreMap) :
    (addScore i sc m).map Prod.fst = m.map Prod.fst ∨
      ((addScore i sc m).map Prod.fst = m.map Prod.fst ++ [i]
        ∧ i ∉ m.map Prod.fst) := by
  induction m with
  | nil => exact Or.inr ⟨by simp [addScore], by simp⟩
  | cons e m ih =>
    by_cases hei : e.1 = i
    · exact Or.inl (by simp [addScore, hei])
    · rcases ih with h1 | h1
      · exact Or.inl (by simp [addScore, hei, h1])
      · refine Or.inr ⟨by simp [addScore, hei, h1.1], ?_⟩
        simp only [List.map_cons, List.mem_cons]
        rintro (h2 | h2)
        · exact hei h2.symm
        · exact h1.2 h2

theorem scoreKeysNodup_addScore (i : Nat) (sc : ℚ) (m : ScoreMap)
    (h : (m.map Prod.fst).Nodup) : ((addScore i sc m).map Prod.fst).Nodup := by
  rcases scoreKeys_addScore i sc m with h1 | h1
  · rw [h1]
    exact h
  · rw [h1.1]
    simp only [List.nodup_append, List.nodup_cons, List.not_mem_nil, not_false_iff,
      List.nodup_nil, and_true, List.disjoint_singleton]
    exact ⟨h, by simpa using h1.2⟩

theorem lookupScore_mem (m : ScoreMap) (e : Nat × ℚ)
    (hnd : (m.map Prod.fst).Nodup) (hm : e ∈ m) :
    lookupScore e.1 m = some e.2 := by
  induction m with
  | nil => simp at hm
  | cons e2 m ih =>
    simp only [List.map_cons, List.nodup_cons] at hnd
    rcases List.mem_cons.1 hm with h | h
    · rw [h, lookupScore, if_pos rfl]
    · have hne : ¬ e2.1 = e.1 := by
        intro hh
        exact hnd.1 (hh ▸ List.mem_map_of_mem Prod.fst h)
      rw [lookupScore, if_neg hne]
      exact ih hnd.2 h

/-- The weighted sum the add-fold of one strategy produces for item `j`. -/
def sumW (recs : List (Nat × ℚ)) (j : Nat) (w : ℚ) : ℚ :=
  ((recs.filter (fun r => r.1 = j)).map (fun r => r.2 * w)).sum

theorem sumW_cons (r : Nat × ℚ) (recs : List (Nat × ℚ)) (j : Nat) (w : ℚ) :
    sumW (r :: recs) j w = (if r.1 = j then r.2 * w else 0) + sumW recs j w := by
  by_cases h : r.1 = j <;> simp [sumW, h]

theorem sumW_eq_zero (recs : List (Nat × ℚ)) (j : Nat) (w : ℚ)
    (h : j ∉ recs.map Prod.fst) : sumW recs j w = 0 := by
  induction recs with
  | nil => rfl
  | cons r recs ih =>
    simp only [List.map_cons, List.mem_cons] at h
    push_neg at h
    rw [sumW_cons, ih h.2, if_neg (fun hh => h.1 hh.symm), add_zero]

theorem lookupScore_foldl_addScore (w : ℚ) (recs : List (Nat × ℚ))
    (m0 : ScoreMap) (j : Nat) :
    lookupScore j (recs.foldl (fun m r => addScore r.1 (r.2 * w) m) m0)
      = if j ∈ recs.map Prod.fst
        then some ((lookupScore j m0).getD 0 + sumW recs j w)
        else lookupScore j m0 := by
  induction recs generalizing m0 with
  | nil => simp
  | cons r recs ih =>
    rw [List.foldl_cons, ih, lookupScore_addScore, sumW_cons]
    by_cases hj : r.1 = j
    · have hj2 : j = r.1 := hj.symm
      by_cases hmem : j ∈ recs.map Prod.fst
      · rw [if_pos hmem, if_pos hj2,
          if_pos (show j ∈ List.map Prod.fst (r :: recs) by simp [hj2]),
          if_pos hj, hj]
        simp only [Option.getD_some, Option.some.injEq]
        ring
      · rw [if_neg hmem, if_pos hj2,
          if_pos (show j ∈ List.map Prod.fst (r :: recs) by simp [hj2]),
          if_pos hj, sumW_eq_zero recs j w hmem, hj]
        simp only [Option.some.injEq]
        ring
    · have hj2 : ¬ j = r.1 := fun hh => hj hh.symm
      by_cases hmem : j ∈ recs.map Prod.fst
      · rw [if_pos hmem, if_neg hj2,
          if_pos (show j ∈ List.map Prod.fst (r :: recs) by simp [hmem]),
          if_neg hj, zero_add]
      · rw [if_neg hmem, if_neg hj2, if_neg (show
          ¬ j ∈ List.map Prod.fst (r :: recs) by
            simp only [List.map_cons, List.mem_cons]
            push_neg
            exact ⟨fun hh => hj hh.symm, hmem⟩)]

theorem sumW_eq_contrib (recs : List (Nat × ℚ)) (j : Nat) (w : ℚ)
    (hnd : (recs.map Prod.fst).Nodup) (hj : j ∈ recs.map Prod.fst) :
    sumW recs j w = contribOf (.ok recs) w j := by
  induction recs with
  | nil => simp at hj
  | cons r recs ih =>
    simp only [List.map_cons, List.nodup_cons] at hnd
    rw [sumW_cons]
    by_cases hr : r.1 = j
    · have hnot : j ∉ recs.map Prod.fst := hr ▸ hnd.1
      rw [if_pos hr, sumW_eq_zero recs j w hnot, add_zero]
      simp [contribOf, lookupStrat, hr]
    · have hj2 : j ∈ recs.map Prod.fst := by
        simp only [List.map_cons, List.mem_cons] at hj
        rcases hj with h | h
        · exact absurd h.symm hr
        · exact h
      rw [if_neg hr, zero_add, ih hnd.2 hj2]
      simp [contribOf, lookupStrat, hr]

theorem contribOf_eq_zero_of_not_hits (res : StratResult) (w : ℚ) (j : Nat)
    (h : ¬ stratHits res j = true) : contribOf res w j = 0 := by
  match res with
  | .error e => rfl
  | .ok l =>
    simp only [stratHits, List.any_eq_true, decide_eq_true_eq] at h
    push_neg at h
    have hnone : lookupStrat j l = none := by
      induction l with
      | nil => rfl
      | cons r l ih =>
        rw [lookupStrat, if_neg (h r (by simp))]
        exact ih (fun r2 h2 => h r2 (by simp [h2]))
    simp [contribOf, hnone]

theorem applyStrategy_fst (name : String) (w : ℚ) (recs : List (Nat × ℚ))
    (st : ScoreMap × ContribMap) :
    (applyStrategy name w (.ok recs) st).1
      = recs.foldl (fun m r => addScore r.1 (r.2 * w) m) st.1 := by
  show (recs.foldl
      (fun st r => (addScore r.1 (r.2 * w) st.1, setContrib r.1 name (r.2 * w) st.2))
      st).1 = _
  induction recs generalizing st with
  | nil => rfl
  | cons r recs ih => exact ih _

theorem lookupScore_applyStrategy (name : String) (w : ℚ) (res : StratResult)
    (st : ScoreMap × ContribMap) (j : Nat)
    (hnd : ∀ l, res = .ok l → (l.map Prod.fst).Nodup) :
    lookupScore j (applyStrategy name w res st).1
      = if stratHits res j
        then some ((lookupScore j st.1).getD 0 + contribOf res w j)
        else lookupScore j st.1 := by
  match res with
  | .error e => rfl
  | .ok l =>
    rw [applyStrategy_fst, lookupScore_foldl_addScore]
    have hhits : stratHits (.ok l) j = true ↔ j ∈ l.map Prod.fst := by
      simp only [stratHits, List.any_eq_true, decide_eq_true_eq, List.mem_map]
    by_cases hmem : j ∈ l.map Prod.fst
    · rw [if_pos hmem, if_pos (hhits.2 hmem),
        sumW_eq_contrib l j w (hnd l rfl) hmem]
    · rw [if_neg hmem, if_neg (fun hh => hmem (hhits.1 hh))]

/-- The running relation between the concrete score-map entry for item `j`
and the spec-side partial sum of contributions. -/
def ScoreOk (x : Option ℚ) (S : ℚ) : Prop :=
  (∀ t, x = some t → t = S) ∧ (x = none → S = 0)

theorem scoreOk_step (name : String) (w : ℚ) (res : StratResult)
    (st : ScoreMap × ContribMap) (j : Nat) (S : ℚ)
    (hnd : ∀ l, res = .ok l → (l.map Prod.fst).Nodup)
    (h : ScoreOk (lookupScore j st.1) S) :
    ScoreOk (lookupScore j (applyStrategy name w res st).1)
      (S + contribOf res w j) := by
  rw [lookupScore_applyStrategy name w res st j hnd]
  by_cases hhits : stratHits res j = true
  · rw [if_pos hhits]
    constructor
    · intro t ht
      have ht2 := Option.some.inj ht
      rcases hx : lookupScore j st.1 with _ | v
      · rw [hx] at ht2
        rw [← ht2, h.2 hx]
        simp
      · rw [hx] at ht2
        rw [← ht2, h.1 v hx]
        simp
    · intro ht
      cases ht
  · rw [if_neg hhits, contribOf_eq_zero_of_not_hits res w j hhits, add_zero]
    exact h

theorem scoreOk_hybridState (freq co glob trend : StratResult) (cart : Option Nat)
    (w : HybridWeights) (j : Nat)
    (hfreq : ∀ l, freq = .ok l → (l.map Prod.fst).Nodup)
    (hco : ∀ l, co = .ok l → (l.map Prod.fst).Nodup)
    (hglob : ∀ l, glob = .ok l → (l.map Prod.fst).Nodup)
    (htrend : ∀ l, trend = .ok l → (l.map Prod.fst).Nodup) :
    ScoreOk (lookupScore j (hybridState freq co glob trend cart w).1)
      (totalContrib freq co glob trend cart w j) := by
  have h0 : ScoreOk (lookupScore j (([], []) : ScoreMap × ContribMap).1) 0 := by
    constructor
    · intro t ht
      cases ht
    · intro ht
      rfl
  have h1 := scoreOk_step "UserFrequency" w.userFrequency freq ([], []) j 0 hfreq h0
  match cart with
  | none =>
    have h4 := scoreOk_step "TimeBasedTrend" w.timeBasedTrend trend _ j _ htrend h1
    have heq : 0 + contribOf freq w.userFrequency j + contribOf trend w.timeBasedTrend j
        = totalContrib freq co glob trend none w j := by
      rw [totalContrib]
      ring
    rw [← heq]
    exact h4
  | some tgt =>
    have h2 := scoreOk_step "UserCoOrders" w.userCoOrders co _ j _ hco h1
    have h3 := scoreOk_step "GlobalCoOrders" w.globalCoOrders glob _ j _ hglob h2
    have h4 := scoreOk_step "TimeBasedTrend" w.timeBasedTrend trend _ j _ htrend h3
    have heq : 0 + contribOf freq w.userFrequency j + contribOf co w.userCoOrders j
          + contribOf glob w.globalCoOrders j + contribOf trend w.timeBasedTrend j
        = totalContrib freq co glob trend (some tgt) w j := by
      rw [totalContrib]
      ring
    rw [← heq]
    exact h4

theorem scoreKeysNodup_foldl_addScore (w : ℚ) (recs : List (Nat × ℚ))
    (m0 : ScoreMap) (h : (m0.map Prod.fst).Nodup) :
    (((recs.foldl (fun m r => addScore r.1 (r.2 * w) m) m0)).map Prod.fst).Nodup := by
  induction recs generalizing m0 with
  | nil => exact h
  | cons r recs ih => exact ih _ (scoreKeysNodup_addScore _ _ _ h)

theorem scoreKeysNodup_applyStrategy (name : String) (w : ℚ) (res : StratResult)
    (st : ScoreMap × ContribMap) (h : (st.1.map Prod.fst).Nodup) :
    (((applyStrategy name w res st).1).map Prod.fst).Nodup := by
  match res with
  | .error e => exact h
  | .ok l =>
    rw [applyStrategy_fst]
    exact scoreKeysNodup_foldl_addScore w l st.1 h

theorem scoreKeysNodup_hybridState (freq co glob trend : StratResult)
    (cart : Option Nat) (w : HybridWeights) :
    (((hybridState freq co glob trend cart w).1).map Prod.fst).Nodup := by
  unfold hybridState
  match cart with
  | none =>
    exact scoreKeysNodup_applyStrategy _ _ _ _
      (scoreKeysNodup_applyStrategy _ _ _ _ (by simp))
  | some tgt =>
    exact scoreKeysNodup_applyStrategy _ _ _ _
      (scoreKeysNodup_applyStrategy _ _ _ _
        (scoreKeysNodup_applyStrategy _ _ _ _
          (scoreKeysNodup_applyStrategy _ _ _ _ (by simp))))

theorem mem_eraseScore (t : Nat) (m : ScoreMap) (e : Nat × ℚ) :
    e ∈ eraseScore t m ↔ e ∈ m ∧ ¬ e.1 = t := by
  simp [eraseScore, List.mem_filter]

theorem mem_hybridScores (freq co glob trend : StratResult) (cart : Option Nat)
    (w : HybridWeights) (e : Nat × ℚ)
    (h : e ∈ hybridScores freq co glob trend cart w) :
    e ∈ (hybridState freq co glob trend cart w).1
      ∧ (∀ tgt, cart = some tgt → e.1 ≠ tgt) := by
  match cart with
  | none =>
    refine ⟨h, ?_⟩
    intro tgt htgt
    cases htgt
  | some tgt =>
    have h2 := (mem_eraseScore tgt _ e).1 h
    refine ⟨h2.1, ?_⟩
    intro tgt2 htgt2
    cases htgt2
    exact h2.2

theorem mem_hybridRecs (freq co glob trend : StratResult) (cart : Option Nat)
    (w : HybridWeights) (rho : List (String × ℚ) → List (String × ℚ))
    (r : Recommendation) (hr : r ∈ hybridRecs freq co glob trend cart w rho) :
    ∃ e ∈ hybridScores freq co glob trend cart w,
      r.item = e.1 ∧ r.score = e.2 ∧
      r.strategy = pickTopStrategy
        (rho (contribsOf e.1 (hybridContribs freq co glob trend cart w))) ∧
      r.explanation = explanationFor
        (pickTopStrategy
          (rho (contribsOf e.1 (hybridContribs freq co glob trend cart w)))) cart := by
  rw [hybridRecs] at hr
  have hr2 := (List.perm_insertionSort
    (fun a b : Recommendation => b.score ≤ a.score) _).mem_iff.1 hr
  rcases List.mem_map.1 hr2 with ⟨e, he, heq⟩
  refine ⟨e, he, ?_, ?_, ?_, ?_⟩ <;> rw [← heq]

/-! ### Claim theorems: Hybrid Combiner -/

/-- C4: every item returned by `HybridRecommendation` has as total score
the sum, over the invoked strategies, of the single weighted contribution
(score × weight) that strategy recorded for the item — each strategy query
groups by item, so its result holds at most one row per item and a later
contribution overwrites nothing real; and the in-cart target item, when
given, never appears in the output. -/
theorem hybrid_total_score (freq co glob trend : StratResult) (cart : Option Nat)
    (w : HybridWeights) (rho : List (String × ℚ) → List (String × ℚ))
    (hfreq : ∀ l, freq = .ok l → (l.map Prod.fst).Nodup)
    (hco : ∀ l, co = .ok l → (l.map Prod.fst).Nodup)
    (hglob : ∀ l, glob = .ok l → (l.map Prod.fst).Nodup)
    (htrend : ∀ l, trend = .ok l → (l.map Prod.fst).Nodup) :
    ∀ r ∈ hybridRecs freq co glob trend cart w rho,
      r.score = totalContrib freq co glob trend cart w r.item ∧
      ∀ tgt, cart = some tgt → r.item ≠ tgt := by
  intro r hr
  rcases mem_hybridRecs freq co glob trend cart w rho r hr with
    ⟨e, he, hitem, hscore, _, _⟩
  have hmem := mem_hybridScores freq co glob trend cart w e he
  constructor
  · have hnd := scoreKeysNodup_hybridState freq co glob trend cart w
    have hlk := lookupScore_mem _ e hnd hmem.1
    have hok := scoreOk_hybridState freq co glob trend cart w e.1 hfreq hco hglob htrend
    rw [hscore, hitem]
    exact hok.1 e.2 hlk
  · intro tgt htgt
    rw [hitem]
    exact hmem.2 tgt htgt

theorem hybrid_total_score_witness :
    (Recommendation.mk 1 5 "This item is trending right now" "TimeBasedTrend").score
      = totalContrib (.ok [(1, 2)]) (.error "a") (.error "b")
        (.ok [(1, 3), (7, 1)]) (some 7) (HybridWeights.mk 1 1 1 1)
        (Recommendation.mk 1 5 "This item is trending right now" "TimeBasedTrend").item ∧
    ∀ tgt, (some 7 : Option Nat) = some tgt →
      (Recommendation.mk 1 5 "This item is trending right now" "TimeBasedTrend").item ≠ tgt :=
  hybrid_total_score (.ok [(1, 2)]) (.error "a") (.error "b")
    (.ok [(1, 3), (7, 1)]) (some 7) (HybridWeights.mk 1 1 1 1) (fun l => l)
    (by
      intro l hl
      cases hl
      decide)
    (by
      intro l hl
      exact absurd hl (by simp))
    (by
      intro l hl
      exact absurd hl (by simp))
    (by
      intro l hl
      cases hl
      decide)
    (Recommendation.mk 1 5 "This item is trending right now" "TimeBasedTrend")
    (by
      norm_num [hybridRecs, hybridScores, hybridContribs, hybridState, applyStrategy,
        addScore, setContrib, setContribIn, contribsOf, pickTopStrategy, explanationFor,
        eraseScore, eraseContrib, List.insertionSort, List.orderedInsert,
        (by decide : ("UserFrequency" = "TimeBasedTrend") = False),
        (by decide : ("TimeBasedTrend" = "UserFrequency") = False)])

/-! ### Dominant-strategy selection lemmas -/

theorem pickTop_fold_keeps (l : List (String × ℚ)) (s : String) (c : ℚ) :
    ∀ acc : String × ℚ, acc.1 = s → acc.2 = c →
    (∀ e ∈ l, e.1 ≠ s → e.2 < c) → (∀ e ∈ l, e.1 = s → e.2 = c) →
    (l.foldl (fun acc e => if e.2 > acc.2 then e else acc) acc).1 = s := by
  induction l with
  | nil =>
    intro acc h1 _ _ _
    exact h1
  | cons e l ih =>
    intro acc h1 h2 hlt heq
    rw [List.foldl_cons]
    have hnot : ¬ e.2 > acc.2 := by
      by_cases hes : e.1 = s
      · rw [heq e (by simp) hes, h2]
        exact lt_irrefl c
      · rw [h2]
        exact not_lt_of_gt (hlt e (by simp) hes)
    rw [if_neg hnot]
    exact ih acc h1 h2 (fun e2 he2 => hlt e2 (by simp [he2]))
      (fun e2 he2 => heq e2 (by simp [he2]))

theorem pickTop_fold_reaches (l : List (String × ℚ)) (s : String) (c : ℚ) :
    ∀ acc : String × ℚ, acc.2 < c → (s, c) ∈ l →
    (∀ e ∈ l, e.1 ≠ s → e.2 < c) → (∀ e ∈ l, e.1 = s → e.2 = c) →
    (l.foldl (fun acc e => if e.2 > acc.2 then e else acc) acc).1 = s := by
  induction l with
  | nil =>
    intro acc _ hmem _ _
    simp at hmem
  | cons e l ih =>
    intro acc hacc hmem hlt heq
    rw [List.foldl_cons]
    by_cases hes : e.1 = s
    · have hec : e.2 = c := heq e (by simp) hes
      rw [if_pos (by rw [hec]; exact hacc)]
      exact pickTop_fold_keeps l s c e hes hec
        (fun e2 he2 => hlt e2 (by simp [he2]))
        (fun e2 he2 => heq e2 (by simp [he2]))
    · have hmem2 : (s, c) ∈ l := by
        rcases List.mem_cons.1 hmem with h | h
        · exact absurd (congrArg Prod.fst h.symm) hes
        · exact h
      have hlt2 := hlt e (by simp) hes
      by_cases hgt : e.2 > acc.2
      · rw [if_pos hgt]
        exact ih e hlt2 hmem2 (fun e2 he2 => hlt e2 (by simp [he2]))
          (fun e2 he2 => heq e2 (by simp [he2]))
      · rw [if_neg hgt]
        exact ih acc hacc hmem2 (fun e2 he2 => hlt e2 (by simp [he2]))
          (fun e2 he2 => heq e2 (by simp [he2]))

theorem pickTopStrategy_unique_max (l : List (String × ℚ)) (s : String) (c : ℚ)
    (hmem : (s, c) ∈ l) (hc : 0 < c)
    (hlt : ∀ e ∈ l, e.1 ≠ s → e.2 < c)
    (heq : ∀ e ∈ l, e.1 = s → e.2 = c) :
    pickTopStrategy l = s :=
  pickTop_fold_reaches l s c ("", 0) hc hmem hlt heq

theorem pickTopStrategy_nonpos (l : List (String × ℚ))
    (h : ∀ e ∈ l, e.2 ≤ 0) : pickTopStrategy l = "" := by
  have haux : ∀ l2 : List (String × ℚ), ∀ acc : String × ℚ,
      (∀ e ∈ l2, e.2 ≤ acc.2) →
      l2.foldl (fun acc e => if e.2 > acc.2 then e else acc) acc = acc := by
    intro l2
    induction l2 with
    | nil =>
      intro acc _
      rfl
    | cons e l2 ih =>
      intro acc hle
      rw [List.foldl_cons, if_neg (not_lt_of_ge (hle e (by simp)))]
      exact ih acc (fun e2 he2 => hle e2 (by simp [he2]))
  rw [pickTopStrategy, haux l ("", 0) (fun e he => h e he)]

/-- C6 counterexample: the dominant-strategy fold iterates a Go map whose
iteration order is unspecified; for the same tied contribution map
(user-frequency 1, time-trend 1, both weighted 1) two legal iteration
orders — the fixed strategy order and its reverse — produce different
dominant strategies and different explanations, so the tie is not resolved
deterministically by the fixed inspection order. -/
theorem hybrid_tiebreak_order_dependent :
    List.Perm (List.reverse [("UserFrequency", (1 : ℚ)), ("TimeBasedTrend", 1)])
      [("UserFrequency", (1 : ℚ)), ("TimeBasedTrend", 1)] ∧
    hybridRecs (.ok [(5, 1)]) (.error "x") (.error "y") (.ok [(5, 1)]) none
      (HybridWeights.mk 1 1 1 1) (fun l => l)
      = [Recommendation.mk 5 2 "Recommended because you frequently order this"
          "UserFrequency"] ∧
    hybridRecs (.ok [(5, 1)]) (.error "x") (.error "y") (.ok [(5, 1)]) none
      (HybridWeights.mk 1 1 1 1) (fun l => l.reverse)
      = [Recommendation.mk 5 2 "This item is trending right now"
          "TimeBasedTrend"] := by
  refine ⟨List.reverse_perm _, ?_, ?_⟩ <;>
    norm_num [hybridRecs, hybridScores, hybridContribs, hybridState, applyStrategy,
      addScore, setContrib, setContribIn, contribsOf, pickTopStrategy, explanationFor,
      List.insertionSort, List.orderedInsert,
      (by decide : ("UserFrequency" = "TimeBasedTrend") = False),
      (by decide : ("TimeBasedTrend" = "UserFrequency") = False)]

/-- C6 (amended): for every surviving item whose contribution map has a
single strictly largest (and strictly positive) contribution, the dominant
strategy is that contribution's strategy under every possible iteration
order of the map, and the explanation is the fixed lookup applied to it;
ties between equal largest contributions are resolved by Go map iteration
order, which is unspecified, not by the fixed strategy order. -/
theorem hybrid_dominant_unique_max (freq co glob trend : StratResult)
    (cart : Option Nat) (w : HybridWeights)
    (rho : List (String × ℚ) → List (String × ℚ))
    (hperm : ∀ l, List.Perm (rho l) l) :
    ∀ r ∈ hybridRecs freq co glob trend cart w rho,
      ∀ s c, (s, c) ∈ contribsOf r.item (hybridContribs freq co glob trend cart w) →
        0 < c →
        (∀ e ∈ contribsOf r.item (hybridContribs freq co glob trend cart w),
          e.1 ≠ s → e.2 < c) →
        (∀ e ∈ contribsOf r.item (hybridContribs freq co glob trend cart w),
          e.1 = s → e.2 = c) →
        r.strategy = s ∧ r.explanation = explanationFor s cart := by
  intro r hr s c hmem hc hlt heq
  rcases mem_hybridRecs freq co glob trend cart w rho r hr with
    ⟨e, he, hitem, _, hstrat, hexpl⟩
  rw [hitem] at hmem hlt heq
  have hpk : pickTopStrategy
      (rho (contribsOf e.1 (hybridContribs freq co glob trend cart w))) = s := by
    refine pickTopStrategy_unique_max _ s c ((hperm _).mem_iff.2 hmem) hc ?_ ?_
    · intro e2 he2
      exact hlt e2 ((hperm _).mem_iff.1 he2)
    · intro e2 he2
      exact heq e2 ((hperm _).mem_iff.1 he2)
  constructor
  · rw [hstrat, hpk]
  · rw [hexpl, hpk]

theorem hybrid_dominant_unique_max_witness :
    (Recommendation.mk 5 3 "Recommended because you frequently order this"
        "UserFrequency").strategy = "UserFrequency" ∧
    (Recommendation.mk 5 3 "Recommended because you frequently order this"
        "UserFrequency").explanation
      = explanationFor "UserFrequency" (none : Option Nat) :=
  hybrid_dominant_unique_max (.ok [(5, 2)]) (.error "x") (.error "y") (.ok [(5, 1)])
    none (HybridWeights.mk 1 1 1 1) (fun l => l) (fun l => List.Perm.refl l)
    (Recommendation.mk 5 3 "Recommended because you frequently order this"
      "UserFrequency")
    (by
      norm_num [hybridRecs, hybridScores, hybridContribs, hybridState, applyStrategy,
        addScore, setContrib, setContribIn, contribsOf, pickTopStrategy, explanationFor,
        List.insertionSort, List.orderedInsert,
        (by decide : ("UserFrequency" = "TimeBasedTrend") = False),
        (by decide : ("TimeBasedTrend" = "UserFrequency") = False)])
    "UserFrequency" 2
    (by
      norm_num [hybridContribs, hybridState, applyStrategy, addScore, setContrib,
        setContribIn, contribsOf,
        (by decide : ("UserFrequency" = "TimeBasedTrend") = False)])
    (by norm_num)
    (by
      intro e2 he2
      norm_num [hybridContribs, hybridState, applyStrategy, addScore, setContrib,
        setContribIn, contribsOf,
        (by decide : ("UserFrequency" = "TimeBasedTrend") = False)] at he2
      rcases he2 with h | h
      · rw [h]
        intro hcontra
        exact absurd rfl hcontra
      · rw [h]
        intro hcontra
        norm_num)
    (by
      intro e2 he2
      norm_num [hybridContribs, hybridState, applyStrategy, addScore, setContrib,
        setContribIn, contribsOf,
        (by decide : ("UserFrequency" = "TimeBasedTrend") = False)] at he2
      rcases he2 with h | h
      · rw [h]
        intro hcontra
        norm_num
      · rw [h]
        intro hcontra
        exact absurd hcontra (by decide))

/-! ### Time-Based Trend strategy

The Cypher filter is `WHERE date(o.created_at) > date() - duration({days:
$days})`: a strict calendar-day comparison against (today − days). -/

/-- The query's window test: the creation date is strictly later than
(today − days). -/
def inTrendWindow (today created days : Int) : Bool :=
  today - days < created

/-- `count(o)` over qualifying orders containing item `i`. -/
def trendScore (orders : List OrderEntry) (today days : Int) (i : Nat) : Nat :=
  orders.countP (fun o => containsItem o i && inTrendWindow today o.createdAt days)

/-- `GetTimeBasedTrendingItems`: the items of qualifying orders, scored by
their qualifying-order count, sorted descending. -/
def trendingItems (orders : List OrderEntry) (today days : Int) : List (Nat × Nat) :=
  let cands := (orders.flatMap (fun o =>
    if inTrendWindow today o.createdAt days then o.items.map Prod.fst else [])).dedup
  (cands.map (fun i => (i, trendScore orders today days i))).insertionSort
    (fun a b => b.2 ≤ a.2)

/-- C7 counterexample: an order created exactly `days` calendar days before
the query date is NOT earlier than (query − days), so the claim includes
it, but the query's strict `>` excludes it: with today = 100 and days = 7
an order created on day 93 yields no trending rows at all. -/
theorem trend_boundary_excluded :
    inTrendWindow 100 93 7 = false ∧ ((100 : Int) - 7 ≤ 93) ∧
    trendingItems [OrderEntry.mk 1 1 [(1, 1)] 93] 100 7 = [] := by
  decide

/-- C7 (amended): every returned item is scored by the number of orders
containing it whose creation date is STRICTLY later than (query date −
days) at calendar-day granularity (the lower bound is exclusive, not
inclusive), every returned score is at least 1, and an order created on or
before (query date − days) — in particular any order more than `days` days
old — never affects the result; so with days = 7 no order created more
than 7 days before the query time is ever included. -/
theorem trendingItems_strict_window (orders : List OrderEntry) (today days : Int) :
    (∀ p ∈ trendingItems orders today days,
      p.2 = trendScore orders today days p.1 ∧ 1 ≤ p.2 ∧
      p.2 = orders.countP (fun o => containsItem o p.1 && decide (today - days < o.createdAt))) ∧
    (∀ o2 : OrderEntry, o2.createdAt ≤ today - days →
      trendingItems (orders ++ [o2]) today days = trendingItems orders today days) := by
  constructor
  · intro p hp
    have hp2 := (List.perm_insertionSort
      (fun a b : Nat × Nat => b.2 ≤ a.2) _).mem_iff.1 hp
    rcases List.mem_map.1 hp2 with ⟨i, hi, heq⟩
    have hscore : p.2 = trendScore orders today days p.1 := by
      rw [← heq]
    refine ⟨hscore, ?_, by rw [hscore]; rfl⟩
    rw [hscore]
    have hpi : p.1 = i := by rw [← heq]
    rw [hpi]
    rcases List.mem_flatMap.1 (List.mem_dedup.1 hi) with ⟨o, ho, hio⟩
    by_cases hwin : inTrendWindow today o.createdAt days
    · rw [if_pos hwin] at hio
      have : 0 < trendScore orders today days i := by
        rw [trendScore]
        refine List.countP_pos_iff.2 ⟨o, ho, ?_⟩
        rw [Bool.and_eq_true, containsItem_iff]
        exact ⟨hio, hwin⟩
      omega
    · rw [if_neg hwin] at hio
      simp at hio
  · intro o2 ho2
    have hwin : inTrendWindow today o2.createdAt days = false := by
      rw [inTrendWindow]
      simp only [decide_eq_false_iff_not, not_lt]
      exact ho2
    unfold trendingItems
    have hcands : (orders ++ [o2]).flatMap (fun o =>
        if inTrendWindow today o.createdAt days then o.items.map Prod.fst else [])
        = orders.flatMap (fun o =>
          if inTrendWindow today o.createdAt days then o.items.map Prod.fst else []) := by
      rw [List.flatMap_append]
      simp [hwin]
    have hscore : ∀ i, trendScore (orders ++ [o2]) today days i
        = trendScore orders today days i := by
      intro i
      rw [trendScore, trendScore, List.countP_append]
      simp [hwin]
    dsimp only
    rw [hcands]
    have hmap : List.map (fun i => (i, trendScore (orders ++ [o2]) today days i))
        ((orders.flatMap (fun o =>
          if inTrendWindow today o.createdAt days then o.items.map Prod.fst else [])).dedup)
        = List.map (fun i => (i, trendScore orders today days i))
        ((orders.flatMap (fun o =>
          if inTrendWindow today o.createdAt days then o.items.map Prod.fst else [])).dedup) := by
      apply List.map_congr_left
      intro i hi
      rw [hscore]
    rw [hmap]

theorem trendingItems_strict_window_witness :
    ((2 : Nat), (1 : Nat)) ∈ trendingItems [OrderEntry.mk 1 1 [(2, 1)] 100] 100 7 ∧
    ((1 : Nat) = trendScore [OrderEntry.mk 1 1 [(2, 1)] 100] 100 7 2 ∧
      (1 : Nat) ≤ 1) ∧
    trendingItems ([OrderEntry.mk 1 1 [(2, 1)] 100] ++ [OrderEntry.mk 3 1 [(9, 1)] 93])
        100 7
      = trendingItems [OrderEntry.mk 1 1 [(2, 1)] 100] 100 7 :=
  ⟨by decide,
    ⟨((trendingItems_strict_window [OrderEntry.mk 1 1 [(2, 1)] 100] 100 7).1
        (2, 1) (by decide)).1,
      ((trendingItems_strict_window [OrderEntry.mk 1 1 [(2, 1)] 100] 100 7).1
        (2, 1) (by decide)).2.1⟩,
    (trendingItems_strict_window [OrderEntry.mk 1 1 [(2, 1)] 100] 100 7).2
      (OrderEntry.mk 3 1 [(9, 1)] 93) (by decide)⟩

/-! ### User Experience Classifier and weight selection -/

/-- `count(o)` over the user's HAS_MADE edges. -/
def countOrdersOf (orders : List OrderEntry) (u : Nat) : Nat :=
  orders.countP (fun o => o.user = u)

/-- `IsNewUser`: fewer than 3 recorded orders. -/
def isNewUser (orders : List OrderEntry) (u : Nat) : Bool :=
  countOrdersOf orders u < 3

def defaultWeights : HybridWeights := HybridWeights.mk 0.4 0.3 0.2 0.1

def weightsForNewUser : HybridWeights := HybridWeights.mk 0.1 0.1 0.5 0.3

def weightsForExperiencedUser : HybridWeights := HybridWeights.mk 0.5 0.3 0.1 0.1

/-- `IsNewUser` seen from the handler: a store failure is surfaced as an
error, otherwise the classification Boolean. -/
def classifyUser (readResult : Except String (List OrderEntry)) (u : Nat) :
    Except String Bool :=
  match readResult with
  | .error e => .error e
  | .ok orders => .ok (isNewUser orders u)

/-- The weight selection of `GetHybridRecommendations`: classification
error → default preset; new → new-user preset; else experienced preset. -/
def selectWeights (classification : Except String Bool) : HybridWeights :=
  match classification with
  | .error _ => defaultWeights
  | .ok true => weightsForNewUser
  | .ok false => weightsForExperiencedUser

/-- The handler's hybrid path: pick weights from the classification, then
call `HybridRecommendation`; the classification error never aborts the
request. -/
def getHybridRecommendations (readResult : Except String (List OrderEntry))
    (u : Nat) (freq co glob trend : StratResult) (cart : Option Nat)
    (rho : List (String × ℚ) → List (String × ℚ)) :
    Except String (List Recommendation) :=
  hybridRecommendation freq co glob trend cart
    (selectWeights (classifyUser readResult u)) rho

/-- C8: `IsNewUser` is true exactly when the HAS_MADE count is below 3 (a
user with exactly 3 orders is experienced), the handler maps new →
new-user preset, experienced → experienced preset, classification failure →
default preset, and a classification failure never fails the
recommendation request. -/
theorem isNewUser_weight_selection (orders : List OrderEntry) (u : Nat) :
    (isNewUser orders u = true ↔ countOrdersOf orders u < 3) ∧
    (countOrdersOf orders u = 3 → isNewUser orders u = false) ∧
    (selectWeights (classifyUser (.ok orders) u)
      = if isNewUser orders u then weightsForNewUser else weightsForExperiencedUser) ∧
    (∀ e, selectWeights (classifyUser (.error e) u) = defaultWeights) ∧
    (∀ e freq co glob trend cart rho,
      (getHybridRecommendations (.error e) u freq co glob trend cart rho).isOk
        = true) := by
  refine ⟨?_, ?_, ?_, ?_, ?_⟩
  · simp [isNewUser]
  · intro h
    simp [isNewUser, h]
  · cases hb : isNewUser orders u <;> simp [classifyUser, selectWeights, hb]
  · intro e
    rfl
  · intro e freq co glob trend cart rho
    rfl

theorem isNewUser_weight_selection_witness :
    countOrdersOf [OrderEntry.mk 1 7 [] 0, OrderEntry.mk 2 7 [] 0,
        OrderEntry.mk 3 7 [] 0] 7 = 3 ∧
    isNewUser [OrderEntry.mk 1 7 [] 0, OrderEntry.mk 2 7 [] 0,
        OrderEntry.mk 3 7 [] 0] 7 = false ∧
    selectWeights (classifyUser (.error "store down") 7) = defaultWeights :=
  ⟨by decide,
    (isNewUser_weight_selection [OrderEntry.mk 1 7 [] 0, OrderEntry.mk 2 7 [] 0,
      OrderEntry.mk 3 7 [] 0] 7).2.1 (by decide),
    (isNewUser_weight_selection [OrderEntry.mk 1 7 [] 0, OrderEntry.mk 2 7 [] 0,
      OrderEntry.mk 3 7 [] 0] 7).2.2.2.1 "store down"⟩

/-- C9: `HybridRecommendation` never returns an error: the result is a
`.ok` list for every combination of strategy outcomes, and when all four
strategies fail their failures are downgraded to zero contribution and the
result is the empty list with no error. -/
theorem hybridRecommendation_never_errors :
    (∀ (freq co glob trend : StratResult) (cart : Option Nat) (w : HybridWeights)
      (rho : List (String × ℚ) → List (String × ℚ)),
      (hybridRecommendation freq co glob trend cart w rho).isOk = true) ∧
    (∀ (e1 e2 e3 e4 : String) (cart : Option Nat) (w : HybridWeights)
      (rho : List (String × ℚ) → List (String × ℚ)),
      hybridRecommendation (.error e1) (.error e2) (.error e3) (.error e4)
        cart w rho = .ok []) := by
  constructor
  · intro freq co glob trend cart w rho
    rfl
  · intro e1 e2 e3 e4 cart w rho
    cases cart <;> rfl

/-- C10: an item all of whose recorded contributions are ≤ 0 is still
returned (one output row per surviving score-map entry), but with the empty
string as its dominant strategy and the fallback explanation, because the
dominant-strategy fold starts from threshold 0 and only a strictly positive
contribution can beat it. -/
theorem hybrid_nonpositive_contributions (freq co glob trend : StratResult)
    (cart : Option Nat) (w : HybridWeights)
    (rho : List (String × ℚ) → List (String × ℚ))
    (hperm : ∀ l, List.Perm (rho l) l) :
    (∀ e ∈ hybridScores freq co glob trend cart w,
      ∃ r ∈ hybridRecs freq co glob trend cart w rho,
        r.item = e.1 ∧ r.score = e.2) ∧
    (∀ r ∈ hybridRecs freq co glob trend cart w rho,
      (∀ sc ∈ contribsOf r.item (hybridContribs freq co glob trend cart w),
        sc.2 ≤ 0) →
      r.strategy = "" ∧
        r.explanation = "Recommended based on your preferences") := by
  constructor
  · intro e he
    refine ⟨Recommendation.mk e.1 e.2
      (explanationFor (pickTopStrategy
        (rho (contribsOf e.1 (hybridContribs freq co glob trend cart w)))) cart)
      (pickTopStrategy
        (rho (contribsOf e.1 (hybridContribs freq co glob trend cart w)))),
      ?_, rfl, rfl⟩
    rw [hybridRecs]
    refine (List.perm_insertionSort
      (fun a b : Recommendation => b.score ≤ a.score) _).mem_iff.2 ?_
    exact List.mem_map.2 ⟨e, he, rfl⟩
  · intro r hr hnp
    rcases mem_hybridRecs freq co glob trend cart w rho r hr with
      ⟨e, he, hitem, _, hstrat, hexpl⟩
    rw [hitem] at hnp
    have hpk : pickTopStrategy
        (rho (contribsOf e.1 (hybridContribs freq co glob trend cart w))) = "" := by
      apply pickTopStrategy_nonpos
      intro e2 he2
      exact hnp e2 ((hperm _).mem_iff.1 he2)
    constructor
    · rw [hstrat, hpk]
    · rw [hexpl, hpk]
      rfl

theorem hybrid_nonpositive_contributions_witness :
    (Recommendation.mk 1 0 "Recommended based on your preferences" "").strategy
      = "" ∧
    (Recommendation.mk 1 0 "Recommended based on your preferences" "").explanation
      = "Recommended based on your preferences" :=
  (hybrid_nonpositive_contributions (.ok [(1, 4)]) (.error "x") (.error "y")
    (.error "z") none (HybridWeights.mk 0 1 1 1) (fun l => l)
    (fun l => List.Perm.refl l)).2
    (Recommendation.mk 1 0 "Recommended based on your preferences" "")
    (by
      norm_num [hybridRecs, hybridScores, hybridContribs, hybridState, applyStrategy,
        addScore, setContrib, setContribIn, contribsOf, pickTopStrategy, explanationFor,
        List.insertionSort, List.orderedInsert]
      decide)
    (by
      intro sc hsc
      norm_num [hybridContribs, hybridState, applyStrategy, addScore, setContrib,
        setContribIn, contribsOf] at hsc
      rw [hsc])

end NeoRec
